import Mathlib

/-!
Verification of the balanced ordered map in `SortedDict.py`.

The Python class `SortedDict` represents both a map and every subtree of its
AVL-style search tree: an "empty" object has `_k` set to a sentinel,
`_l = _r = None` and `_h = _n = 0`, while an occupied node stores a key,
a value, two child objects (possibly empty, never `None`) and cached
height/size fields `_h`/`_n`.

The shallow embedding below mirrors that representation with an inductive
type `SDict`:
  - `SDict.empty` models the sentinel object;
  - `SDict.node k v l r h n` models an occupied object with cached fields.

Keys are modelled by `PyKey`, a two-variant domain (integers and strings)
in which `==` is total but `<` / `>` raise `TypeError` across variants,
exactly as in Python 3.  Errors are modelled with `Except` / `Option`
results: `PyErr.keyError` is Python's `KeyError`, `PyErr.typeError` is
Python's `TypeError` from an unsupported comparison.  Mutating operations
return `Option PyErr × SDict V`: the state component is the object graph
after the call, whether or not an exception propagated out of it.

Python truthiness of a subtree object (`if self:`, `if self._l:` ...) is
`len(...) != 0`, i.e. a read of the cached `_n` field; the embedding
reads the stored field (`storedN`) in exactly the places the source does.

The `while` loop of `_rebalance` is translated with explicit fuel
(`rebalanceLoop`); every structural lemma about it is proved for all fuel
values, so nothing below depends on the particular fuel bound chosen in
`rebalance`.
-/

/-- Python errors that the `SortedDict` operations can raise:
`KeyError` (absent key) and `TypeError` (unsupported comparison). -/
inductive PyErr where
  | keyError : PyErr
  | typeError : PyErr
deriving DecidableEq, Repr

/-- The key domain: Python keys of type `int` or `str`.  Two keys of
different variants compare equal-or-not with `==` but raise `TypeError`
under `<` / `>`. -/
inductive PyKey where
  | int (n : Int) : PyKey
  | str (s : String) : PyKey
deriving DecidableEq, Repr

namespace PyKey

/-- Python `==` on keys: structural equality inside a variant, `False`
across variants, never raises. -/
def pyEq : PyKey → PyKey → Bool
  | .int a, .int b => a = b
  | .str a, .str b => a = b
  | _, _ => false

/-- Whether two keys belong to the same variant, i.e. whether Python can
order-compare them without raising `TypeError`. -/
def sameType : PyKey → PyKey → Bool
  | .int _, .int _ => true
  | .str _, .str _ => true
  | _, _ => false

/-- The strict order on keys used by the tree, defined within each
variant; across variants it is `false` (such comparisons raise instead,
see `pyLt`). -/
def ltB : PyKey → PyKey → Bool
  | .int a, .int b => a < b
  | .str a, .str b => a < b
  | _, _ => false

/-- Python `k < k0`: the boolean result, or `TypeError` across variants. -/
def pyLt (k k0 : PyKey) : Except PyErr Bool :=
  if sameType k k0 then .ok (ltB k k0) else .error .typeError

/-- Python `k > k0`: the boolean result, or `TypeError` across variants. -/
def pyGt (k k0 : PyKey) : Except PyErr Bool :=
  if sameType k k0 then .ok (ltB k0 k) else .error .typeError

end PyKey

open PyKey

/-- The tree representation of `SortedDict`: `empty` is the sentinel
object (`_k` = sentinel, `_h = _n = 0`), `node k v l r h n` is an
occupied object with cached height `h` (`_h`) and cached size `n`
(`_n`). -/
inductive SDict (V : Type) where
  | empty : SDict V
  | node (k : PyKey) (v : V) (l r : SDict V) (h n : Nat) : SDict V
deriving DecidableEq, Repr

namespace SDict

variable {V : Type}

/-- Read of the cached `_h` field (0 on the empty object). -/
def storedH : SDict V → Nat
  | .empty => 0
  | .node _ _ _ _ h _ => h

/-- Read of the cached `_n` field (0 on the empty object); `len(self)`
reads exactly this field, and Python truthiness of a subtree object is
`storedN ≠ 0`. -/
def storedN : SDict V → Nat
  | .empty => 0
  | .node _ _ _ _ _ n => n

/-- The height of the tree recomputed from its structure, ignoring the
cached fields. -/
def realHeight : SDict V → Nat
  | .empty => 0
  | .node _ _ l r _ _ => max (realHeight l) (realHeight r) + 1

/-- The number of occupied nodes recomputed from the structure, ignoring
the cached fields. -/
def realSize : SDict V → Nat
  | .empty => 0
  | .node _ _ l r _ _ => realSize l + realSize r + 1

/-- The in-order key/value sequence of the structure, ignoring the cached
fields. -/
def realItems : SDict V → List (PyKey × V)
  | .empty => []
  | .node k v l r _ _ => realItems l ++ [(k, v)] ++ realItems r

/-- The in-order key sequence of the structure. -/
def realKeys (t : SDict V) : List PyKey := (realItems t).map Prod.fst

/-- Whether every cached `_h`/`_n` field in the tree agrees with the
structure (spec invariant 3). -/
def storedOkB : SDict V → Bool
  | .empty => true
  | .node _ _ l r h n =>
      storedOkB l && storedOkB r &&
      decide (h = max (realHeight l) (realHeight r) + 1) &&
      decide (n = realSize l + realSize r + 1)

/-- The `_update(full=False)` method: recompute this object's `_h`/`_n`
from the children's cached fields (the sentinel object resets both
to 0). -/
def updateSelf : SDict V → SDict V
  | .empty => .empty
  | .node k v l r _ _ =>
      .node k v l r (max (storedH l) (storedH r) + 1) (storedN l + storedN r + 1)

/-- The `_update()` method with `full=True`: recompute every cached
`_h`/`_n` in the subtree, bottom-up. -/
def updateFull : SDict V → SDict V
  | .empty => .empty
  | .node k v l r _ _ =>
      let l' := updateFull l
      let r' := updateFull r
      .node k v l' r' (max (storedH l') (storedH r') + 1) (storedN l' + storedN r' + 1)

/-- The `_balance` property: `(self._l._h - self._r._h) if self._l else 0`.
On the empty object `self._l` is `None` (falsy); on an occupied object
`self._l` is a subtree object whose truthiness is its cached size.  Hence
any node whose left child is empty reports balance 0 regardless of its
right child. -/
def balance : SDict V → Int
  | .empty => 0
  | .node _ _ l r _ _ => if storedN l ≠ 0 then (storedH l : Int) - (storedH r : Int) else 0

/-- A fresh `SortedDict()` receiving the fields of `t` by assignment
(`t._k, t._val, t._l, t._r = ...` in `_rotate`): keys, values and child
references are copied, the cached `_h`/`_n` stay at their initial 0. -/
def copyShell : SDict V → SDict V
  | .empty => .empty
  | .node k v l r _ _ => .node k v l r 0 0

/-- The `_rotate` method.  `toLeft = true` is the default `left=True`
branch (the right child is promoted), `toLeft = false` the `left=False`
branch (the left child is promoted).  The demoted object is the original
child object rewritten in place, so it keeps its stale cached fields
until the final full `_update()` recomputes every cached field in the
subtree.  Shapes on which the source would dereference `None` (never
produced by `_rebalance`) are returned unchanged. -/
def rotate (toLeft : Bool) (t : SDict V) : SDict V :=
  match t with
  | .empty => t
  | .node sk sv l r h n =>
    if toLeft then
      match r with
      | .empty => t
      | .node rk rv rl rr _ _ =>
          updateFull (.node rk rv (.node sk sv (copyShell l) rl (storedH l) (storedN l)) rr h n)
    else
      match l with
      | .empty => t
      | .node lk lv ll lr _ _ =>
          updateFull (.node lk lv ll (.node sk sv lr (copyShell r) (storedH r) (storedN r)) h n)

/-- The left child of an occupied object (`self._l`). -/
def leftChild : SDict V → SDict V
  | .empty => .empty
  | .node _ _ l _ _ _ => l

/-- The right child of an occupied object (`self._r`). -/
def rightChild : SDict V → SDict V
  | .empty => .empty
  | .node _ _ _ r _ _ => r

/-- Replacement of the left child reference (`self._l = x`), all other
fields untouched. -/
def withLeft (t x : SDict V) : SDict V :=
  match t with
  | .empty => t
  | .node k v _ r h n => .node k v x r h n

/-- Replacement of the right child reference (`self._r = x`), all other
fields untouched. -/
def withRight (t x : SDict V) : SDict V :=
  match t with
  | .empty => t
  | .node k v l _ h n => .node k v l x h n

/-- The left-heavy conditional of the `_rebalance` loop body:
`if self._balance > 1: if self._l._balance < 0: self._l._rotate();
self._rotate(left=False)`. -/
def rebalStepA (t : SDict V) : SDict V :=
  if 1 < balance t then
    rotate false (if balance (leftChild t) < 0 then withLeft t (rotate true (leftChild t)) else t)
  else t

/-- The right-heavy conditional of the `_rebalance` loop body, evaluated
on the state left by the first conditional (the source uses two separate
`if` statements, not `elif`): `if self._balance < -1:
if self._r._balance > 0: self._r._rotate(left=False); self._rotate()`. -/
def rebalStepB (t : SDict V) : SDict V :=
  if balance t < -1 then
    rotate true (if 0 < balance (rightChild t) then withRight t (rotate false (rightChild t)) else t)
  else t

/-- The `while abs(self._balance) > 1` loop of `_rebalance`, iterated on
explicit fuel. -/
def rebalanceLoop : Nat → SDict V → SDict V
  | 0, t => t
  | fuel + 1, t =>
    if (balance t).natAbs ≤ 1 then t
    else rebalanceLoop fuel (rebalStepB (rebalStepA t))

/-- The `_rebalance` method: `_update(full=False)` followed by the
rotation loop.  The fuel bound is immaterial: every lemma below about
`rebalanceLoop` holds for all fuel values. -/
def rebalance (t : SDict V) : SDict V :=
  rebalanceLoop (realSize t + 2) (updateSelf t)

/-- The `__setitem__` method.  The result pairs the propagated exception
(if any) with the object graph after the call; an exception propagates
before any field of the current object is written, so on error each
frame rebuilds its node unchanged around the child's state and skips its
`_rebalance()`. -/
def setitem (t : SDict V) (k : PyKey) (v : V) : Option PyErr × SDict V :=
  match t with
  | .empty => (none, rebalance (.node k v .empty .empty 0 0))
  | .node k0 v0 l r h n =>
    if n = 0 then (none, rebalance (.node k v .empty .empty h n))
    else
      match pyGt k k0 with
      | .error e => (some e, t)
      | .ok true =>
        match setitem r k v with
        | (some e, r1) => (some e, .node k0 v0 l r1 h n)
        | (none, r1) => (none, rebalance (.node k0 v0 l r1 h n))
      | .ok false =>
        match pyLt k k0 with
        | .error e => (some e, t)
        | .ok true =>
          match setitem l k v with
          | (some e, l1) => (some e, .node k0 v0 l1 r h n)
          | (none, l1) => (none, rebalance (.node k0 v0 l1 r h n))
        | .ok false => (none, rebalance (.node k0 v l r h n))

/-- The `__getitem__` method: pure lookup, `KeyError` on the empty
object, `TypeError` if the `>` comparison is unsupported. -/
def getitem (t : SDict V) (k : PyKey) : Except PyErr V :=
  match t with
  | .empty => .error .keyError
  | .node k0 v0 l r _ n =>
    if n = 0 then .error .keyError
    else if pyEq k0 k then .ok v0
    else
      match pyGt k k0 with
      | .error e => .error e
      | .ok true => getitem r k
      | .ok false => getitem l k

/-- The recursion depth of `__getitem__`: how many objects the lookup
visits before returning or raising. -/
def getSteps (t : SDict V) (k : PyKey) : Nat :=
  match t with
  | .empty => 1
  | .node k0 _ l r _ n =>
    if n = 0 then 1
    else if pyEq k0 k then 1
    else
      match pyGt k k0 with
      | .error _ => 1
      | .ok true => getSteps r k + 1
      | .ok false => getSteps l k + 1

/-- The successor search of `__delitem__`: `next_ = self._r` followed by
`while next_._l: next_ = next_._l`, returning the key and value of the
leftmost occupied object (`none` on the empty object, where the source
loop would stop immediately at the sentinel). -/
def findMin : SDict V → Option (PyKey × V)
  | .empty => none
  | .node k v l _ _ _ => if storedN l ≠ 0 then findMin l else some (k, v)

/-- The `__delitem__` method, with the same error/state convention as
`setitem`.  On `k == self._k`: an only child (or the empty left child
when both are empty) is adopted wholesale via `__dict__.update`;
otherwise the in-order successor's key/value are copied in before the
successor key is deleted from the right subtree. -/
def delitem (t : SDict V) (k : PyKey) : Option PyErr × SDict V :=
  match t with
  | .empty => (some .keyError, t)
  | .node k0 v0 l r h n =>
    if n = 0 then (some .keyError, t)
    else if pyEq k k0 then
      if storedN r = 0 then (none, rebalance l)
      else if storedN l = 0 then (none, rebalance r)
      else
        match findMin r with
        | none => (some .keyError, t)
        | some (sk, sv) =>
          match delitem r sk with
          | (some e, r1) => (some e, .node sk sv l r1 h n)
          | (none, r1) => (none, rebalance (.node sk sv l r1 h n))
    else
      match pyLt k k0 with
      | .error e => (some e, t)
      | .ok true =>
        match delitem l k with
        | (some e, l1) => (some e, .node k0 v0 l1 r h n)
        | (none, l1) => (none, rebalance (.node k0 v0 l1 r h n))
      | .ok false =>
        match delitem r k with
        | (some e, r1) => (some e, .node k0 v0 l r1 h n)
        | (none, r1) => (none, rebalance (.node k0 v0 l r1 h n))

/-- The `__iter__` method: in-order key generation guarded by the
truthiness (`if self:`) of each object, i.e. its cached size. -/
def iterKeys : SDict V → List PyKey
  | .empty => []
  | .node k _ l r _ n => if n = 0 then [] else iterKeys l ++ [k] ++ iterKeys r

/-- The `__len__` method: a read of the root's cached `_n`. -/
def lenD (t : SDict V) : Nat := storedN t

/-- The `__contains__` mixin of `collections.abc.Mapping`: call
`__getitem__`, turn `KeyError` into `False`, let every other exception
(here `TypeError`) propagate. -/
def containsD (t : SDict V) (k : PyKey) : Except PyErr Bool :=
  match getitem t k with
  | .ok _ => .ok true
  | .error .keyError => .ok false
  | .error .typeError => .error .typeError

/-- The `items()` view of `collections.abc.Mapping`: iterate the keys and
look each one up.  (On a consistent tree every lookup succeeds; lookups
that would raise contribute nothing.) -/
def dictItems (t : SDict V) : List (PyKey × V) :=
  (iterKeys t).filterMap fun k =>
    match getitem t k with
    | .ok v => some (k, v)
    | .error _ => none

/-- Construction from an iterable of (key, value) pairs:
`MutableMapping.update` inserts the pairs one at a time, in order, into
the accumulated tree; an insertion that raises leaves the accumulated
object graph as the exception left it. -/
def buildFromList (ps : List (PyKey × V)) : SDict V :=
  ps.foldl (fun t p => (setitem t p.1 p.2).2) .empty

/-- Construction from another mapping: `MutableMapping.update` iterates
the source's keys (for `SortedDict`, in sorted order) and inserts
`(key, source[key])` pairs one at a time. -/
def buildFromMap (m : SDict V) : SDict V := buildFromList (dictItems m)

/-- A single externally visible mutation. -/
inductive MapOp (V : Type) where
  | set (k : PyKey) (v : V) : MapOp V
  | del (k : PyKey) : MapOp V

/-- The object graph after one mutation (whether or not it raised). -/
def applyOp (t : SDict V) : MapOp V → SDict V
  | .set k v => (setitem t k v).2
  | .del k => (delitem t k).2

/-- The map obtained from an empty `SortedDict()` by a sequence of set
and delete operations. -/
def applyOps (ops : List (MapOp V)) : SDict V := ops.foldl applyOp .empty

/-- A map is reachable when some operation sequence produces it from the
empty map. -/
def ReachableT (t : SDict V) : Prop := ∃ ops : List (MapOp V), applyOps ops = t

/-- The AVL balance invariant on the structure: every occupied node has
children whose recomputed heights differ by at most 1. -/
def avlOkB : SDict V → Bool
  | .empty => true
  | .node _ _ l r _ _ =>
      decide (((realHeight l : Int) - (realHeight r : Int)).natAbs ≤ 1) &&
      avlOkB l && avlOkB r

/-- The proposition form of the strict key order. -/
def keyLtP (a b : PyKey) : Prop := ltB a b = true

/-- The key order is decidable (it is a boolean test). -/
instance keyLtP.instDecidable : DecidableRel keyLtP := fun a b =>
  inferInstanceAs (Decidable (ltB a b = true))

/-- A key is comparable with a tree when Python can order-compare it with
every key stored in the tree. -/
def compatKey (k : PyKey) (t : SDict V) : Prop :=
  ∀ k' ∈ realKeys t, sameType k k' = true

/-- The consistency invariant of every externally visible `SortedDict`:
all cached `_h`/`_n` fields agree with the structure, and the in-order
key sequence is strictly increasing (the BST invariant). -/
def Inv (t : SDict V) : Prop :=
  storedOkB t = true ∧ List.Pairwise keyLtP (realKeys t)

/-- Comparability with a tree is decidable. -/
instance compatKey.instDecidable (k : PyKey) (t : SDict V) : Decidable (compatKey k t) :=
  inferInstanceAs (Decidable (∀ k2 ∈ realKeys t, sameType k k2 = true))

/-- The consistency invariant is decidable. -/
instance Inv.instDecidable (t : SDict V) : Decidable (Inv t) :=
  inferInstanceAs (Decidable (storedOkB t = true ∧ List.Pairwise keyLtP (realKeys t)))

/-- List-level model of one insertion into a key-sorted association
list: replace the entry with an equal key, otherwise insert in order. -/
def listInsert (k : PyKey) (v : V) : List (PyKey × V) → List (PyKey × V)
  | [] => [(k, v)]
  | p :: rest =>
    if ltB k p.1 then (k, v) :: p :: rest
    else if k = p.1 then (k, v) :: rest
    else p :: listInsert k v rest

/-- The value at a key in an association list (first match). -/
def assocVal (k : PyKey) (xs : List (PyKey × V)) : Option V :=
  (xs.find? fun p => pyEq p.1 k).map Prod.snd

/-- The value of the last pair with the given key in a list of pairs. -/
def lastVal (k : PyKey) (ps : List (PyKey × V)) : Option V :=
  (ps.reverse.find? fun p => pyEq p.1 k).map Prod.snd

/-- Removal of every pair with the given key from an association list
(on a list with duplicate-free keys: removal of the one entry). -/
def listErase (k : PyKey) (xs : List (PyKey × V)) : List (PyKey × V) :=
  xs.filter fun p => decide (p.1 ≠ k)

/-- Sequential deletion of a list of keys (each call's post-state feeds
the next, as with repeated `del d[k]` statements). -/
def applyDels (t : SDict V) (ds : List PyKey) : SDict V :=
  ds.foldl (fun u d => (delitem u d).2) t

/-- The degenerate right spine holding keys `lo, lo+1, ..., lo+len-1`,
with consistent cached fields: the shape the source produces for
ascending insertions. -/
def spine (lo : Int) : Nat → SDict Nat
  | 0 => .empty
  | len + 1 => .node (.int lo) 0 .empty (spine (lo + 1) len) (len + 1) (len + 1)

/-- The ascending key sequence 1, 2, ..., n paired with value 0. -/
def ascPairs (n : Nat) : List (PyKey × Nat) :=
  (List.range n).map fun i => (PyKey.int ((i : Int) + 1), 0)

/-- The map built by inserting keys 1, 2, ..., n in ascending order. -/
def buildAsc (n : Nat) : SDict Nat := buildFromList (ascPairs n)

end SDict

namespace PyKey

theorem sameType_refl (a : PyKey) : sameType a a = true := by
  cases a <;> rfl

theorem sameType_symm {a b : PyKey} (h : sameType a b = true) : sameType b a = true := by
  cases a <;> cases b <;> simp_all [sameType]

theorem sameType_trans {a b c : PyKey} (h1 : sameType a b = true)
    (h2 : sameType b c = true) : sameType a c = true := by
  cases a <;> cases b <;> cases c <;> simp_all [sameType]

theorem ltB_sameType {a b : PyKey} (h : ltB a b = true) : sameType a b = true := by
  cases a <;> cases b <;> simp_all [ltB, sameType]

theorem pyEq_iff {a b : PyKey} : pyEq a b = true ↔ a = b := by
  cases a <;> cases b <;> simp [pyEq]

theorem ltB_irrefl (a : PyKey) : ltB a a = false := by
  cases a <;> simp [ltB]

theorem ltB_asymm {a b : PyKey} (h : ltB a b = true) : ltB b a = false := by
  cases a <;> cases b <;> simp_all [ltB]
  all_goals first
  | omega
  | exact le_of_lt h

theorem ltB_trans {a b c : PyKey} (h1 : ltB a b = true) (h2 : ltB b c = true) :
    ltB a c = true := by
  cases a <;> cases b <;> cases c <;> simp_all [ltB]
  all_goals first
  | omega
  | exact lt_trans h1 h2

theorem ltB_total (a b : PyKey) (h : sameType a b = true) (hne : a ≠ b) :
    ltB a b = true ∨ ltB b a = true := by
  cases a with
  | int x =>
    cases b with
    | int y =>
      simp_all [ltB]
    | str y => simp [sameType] at h
  | str x =>
    cases b with
    | int y => simp [sameType] at h
    | str y =>
      have hxy : x ≠ y := by
        intro he
        exact hne (by rw [he])
      simp only [ltB, decide_eq_true_eq]
      exact hxy.lt_or_lt

theorem ne_of_ltB {a b : PyKey} (h : ltB a b = true) : a ≠ b := by
  intro he
  subst he
  simp [ltB_irrefl] at h

end PyKey

namespace SDict

variable {V : Type}

theorem length_realItems (t : SDict V) : (realItems t).length = realSize t := by
  induction t with
  | empty => rfl
  | node k v l r h n ihl ihr => simp [realItems, realSize, ihl, ihr]; omega

theorem realSize_eq_zero_iff (t : SDict V) : realSize t = 0 ↔ t = .empty := by
  cases t with
  | empty => simp [realSize]
  | node k v l r h n => simp [realSize]

theorem realKeys_node (k : PyKey) (v : V) (l r : SDict V) (h n : Nat) :
    realKeys (.node k v l r h n) = realKeys l ++ [k] ++ realKeys r := by
  simp [realKeys, realItems]

theorem storedH_eq_realHeight {t : SDict V} (ht : storedOkB t = true) :
    storedH t = realHeight t := by
  cases t with
  | empty => rfl
  | node k v l r h n =>
    simp [storedOkB] at ht
    simp [storedH, realHeight]
    omega

theorem storedN_eq_realSize {t : SDict V} (ht : storedOkB t = true) :
    storedN t = realSize t := by
  cases t with
  | empty => rfl
  | node k v l r h n =>
    simp [storedOkB] at ht
    simp [storedN, realSize]
    omega

theorem storedOkB_children {k v} {l r : SDict V} {h n}
    (ht : storedOkB (.node k v l r h n) = true) :
    storedOkB l = true ∧ storedOkB r = true := by
  simp [storedOkB] at ht
  exact ⟨ht.1.1.1, ht.1.1.2⟩

theorem realHeight_updateFull (t : SDict V) : realHeight (updateFull t) = realHeight t := by
  induction t with
  | empty => rfl
  | node k v l r h n ihl ihr => simp [updateFull, realHeight, ihl, ihr]

theorem realSize_updateFull (t : SDict V) : realSize (updateFull t) = realSize t := by
  induction t with
  | empty => rfl
  | node k v l r h n ihl ihr => simp [updateFull, realSize, ihl, ihr]

theorem realItems_updateFull (t : SDict V) : realItems (updateFull t) = realItems t := by
  induction t with
  | empty => rfl
  | node k v l r h n ihl ihr => simp [updateFull, realItems, ihl, ihr]

theorem storedOkB_updateFull (t : SDict V) : storedOkB (updateFull t) = true := by
  induction t with
  | empty => rfl
  | node k v l r h n ihl ihr =>
    simp [updateFull, storedOkB, ihl, ihr,
      storedH_eq_realHeight ihl, storedH_eq_realHeight ihr,
      storedN_eq_realSize ihl, storedN_eq_realSize ihr,
      realHeight_updateFull, realSize_updateFull]

theorem realItems_updateSelf (t : SDict V) : realItems (updateSelf t) = realItems t := by
  cases t <;> rfl

theorem realItems_copyShell (t : SDict V) : realItems (copyShell t) = realItems t := by
  cases t <;> rfl

theorem storedOkB_updateSelf {k v} {l r : SDict V} {h n}
    (hl : storedOkB l = true) (hr : storedOkB r = true) :
    storedOkB (updateSelf (.node k v l r h n)) = true := by
  simp [updateSelf, storedOkB, hl, hr,
    storedH_eq_realHeight hl, storedH_eq_realHeight hr,
    storedN_eq_realSize hl, storedN_eq_realSize hr]

theorem realItems_rotate (b : Bool) (t : SDict V) :
    realItems (rotate b t) = realItems t := by
  cases t with
  | empty => rfl
  | node sk sv l r h n =>
    cases b with
    | true =>
      cases r with
      | empty => rfl
      | node rk rv rl rr rh rn =>
        simp [rotate, realItems_updateFull, realItems, realItems_copyShell]
    | false =>
      cases l with
      | empty => rfl
      | node lk lv ll lr lh ln =>
        simp [rotate, realItems_updateFull, realItems, realItems_copyShell]

end SDict

namespace SDict

variable {V : Type}

theorem rotate_ne_empty (b : Bool) {t : SDict V} (ht : t ≠ .empty) :
    rotate b t ≠ .empty := by
  cases t with
  | empty => exact absurd rfl ht
  | node sk sv l r h n =>
    cases b with
    | true =>
      cases r with
      | empty => simp [rotate]
      | node rk rv rl rr rh rn => simp [rotate, updateFull]
    | false =>
      cases l with
      | empty => simp [rotate]
      | node lk lv ll lr lh ln => simp [rotate, updateFull]

theorem storedOk_rotate_right {t : SDict V} (ht : t ≠ .empty)
    (hl : leftChild t ≠ .empty) : storedOkB (rotate false t) = true := by
  cases t with
  | empty => exact absurd rfl ht
  | node sk sv l r h n =>
    cases l with
    | empty => exact absurd rfl hl
    | node lk lv ll lr lh ln =>
      simp only [rotate]
      exact storedOkB_updateFull _

theorem storedOk_rotate_left {t : SDict V} (ht : t ≠ .empty)
    (hr : rightChild t ≠ .empty) : storedOkB (rotate true t) = true := by
  cases t with
  | empty => exact absurd rfl ht
  | node sk sv l r h n =>
    cases r with
    | empty => exact absurd rfl hr
    | node rk rv rl rr rh rn =>
      simp only [rotate, if_pos]
      exact storedOkB_updateFull _

theorem withLeft_ne_empty {t : SDict V} (x : SDict V) (ht : t ≠ .empty) :
    withLeft t x ≠ .empty := by
  cases t with
  | empty => exact absurd rfl ht
  | node k v l r h n => simp [withLeft]

theorem withRight_ne_empty {t : SDict V} (x : SDict V) (ht : t ≠ .empty) :
    withRight t x ≠ .empty := by
  cases t with
  | empty => exact absurd rfl ht
  | node k v l r h n => simp [withRight]

theorem leftChild_withLeft {t : SDict V} (x : SDict V) (ht : t ≠ .empty) :
    leftChild (withLeft t x) = x := by
  cases t with
  | empty => exact absurd rfl ht
  | node k v l r h n => rfl

theorem rightChild_withRight {t : SDict V} (x : SDict V) (ht : t ≠ .empty) :
    rightChild (withRight t x) = x := by
  cases t with
  | empty => exact absurd rfl ht
  | node k v l r h n => rfl

theorem ne_empty_of_one_lt_balance {t : SDict V} (hb : 1 < balance t) :
    t ≠ .empty ∧ leftChild t ≠ .empty := by
  cases t with
  | empty => simp [balance] at hb
  | node k v l r h n =>
    simp only [balance] at hb
    by_cases hl : storedN l ≠ 0
    · refine ⟨by simp, ?_⟩
      intro he
      simp only [leftChild] at he
      subst he
      exact hl rfl
    · rw [if_neg hl] at hb
      omega

theorem ne_empty_of_balance_lt_neg {t : SDict V} (hb : balance t < -1) :
    t ≠ .empty ∧ leftChild t ≠ .empty ∧ rightChild t ≠ .empty := by
  cases t with
  | empty => simp [balance] at hb
  | node k v l r h n =>
    simp only [balance] at hb
    by_cases hl : storedN l ≠ 0
    · rw [if_pos hl] at hb
      refine ⟨by simp, ?_, ?_⟩
      · intro he
        simp only [leftChild] at he
        subst he
        exact hl rfl
      · intro he
        simp only [rightChild] at he
        subst he
        simp [storedH] at hb
        omega
    · rw [if_neg hl] at hb
      omega

theorem storedOk_stepA {t : SDict V} (hA : 1 < balance t) :
    storedOkB (rebalStepA t) = true ∧ rebalStepA t ≠ .empty := by
  obtain ⟨ht, hl⟩ := ne_empty_of_one_lt_balance hA
  rw [rebalStepA, if_pos hA]
  by_cases hc : balance (leftChild t) < 0
  · rw [if_pos hc]
    have hu : withLeft t (rotate true (leftChild t)) ≠ .empty := withLeft_ne_empty _ ht
    have hul : leftChild (withLeft t (rotate true (leftChild t))) ≠ .empty := by
      rw [leftChild_withLeft _ ht]
      exact rotate_ne_empty _ hl
    exact ⟨storedOk_rotate_right hu hul, rotate_ne_empty _ hu⟩
  · rw [if_neg hc]
    exact ⟨storedOk_rotate_right ht hl, rotate_ne_empty _ ht⟩

theorem storedOk_stepB {t1 : SDict V} (hB : balance t1 < -1) :
    storedOkB (rebalStepB t1) = true := by
  obtain ⟨ht, _, hr⟩ := ne_empty_of_balance_lt_neg hB
  rw [rebalStepB, if_pos hB]
  by_cases hc : 0 < balance (rightChild t1)
  · rw [if_pos hc]
    have hu : withRight t1 (rotate false (rightChild t1)) ≠ .empty := withRight_ne_empty _ ht
    have hur : rightChild (withRight t1 (rotate false (rightChild t1))) ≠ .empty := by
      rw [rightChild_withRight _ ht]
      exact rotate_ne_empty _ hr
    exact storedOk_rotate_left hu hur
  · rw [if_neg hc]
    exact storedOk_rotate_left ht hr

end SDict

namespace SDict

variable {V : Type}

theorem realItems_withLeft_rotate (b : Bool) (t : SDict V) :
    realItems (withLeft t (rotate b (leftChild t))) = realItems t := by
  cases t with
  | empty => rfl
  | node k v l r h n => simp [withLeft, leftChild, realItems, realItems_rotate]

theorem realItems_withRight_rotate (b : Bool) (t : SDict V) :
    realItems (withRight t (rotate b (rightChild t))) = realItems t := by
  cases t with
  | empty => rfl
  | node k v l r h n => simp [withRight, rightChild, realItems, realItems_rotate]

theorem realItems_rebalStepA (t : SDict V) : realItems (rebalStepA t) = realItems t := by
  rw [rebalStepA]
  split_ifs <;>
    simp [realItems_rotate, realItems_withLeft_rotate]

theorem realItems_rebalStepB (t : SDict V) : realItems (rebalStepB t) = realItems t := by
  rw [rebalStepB]
  split_ifs <;>
    simp [realItems_rotate, realItems_withRight_rotate]

theorem realItems_rebalanceLoop (fuel : Nat) (t : SDict V) :
    realItems (rebalanceLoop fuel t) = realItems t := by
  induction fuel generalizing t with
  | zero => rfl
  | succ f ih =>
    rw [rebalanceLoop]
    split
    · rfl
    · rw [ih, realItems_rebalStepB, realItems_rebalStepA]

theorem storedOkB_rebalanceLoop (fuel : Nat) {t : SDict V} (ht : storedOkB t = true) :
    storedOkB (rebalanceLoop fuel t) = true := by
  induction fuel generalizing t with
  | zero => exact ht
  | succ f ih =>
    rw [rebalanceLoop]
    split
    · exact ht
    · rename_i hbal
      apply ih
      by_cases hA : 1 < balance t
      · obtain ⟨hok, hne⟩ := storedOk_stepA hA
        by_cases hB : balance (rebalStepA t) < -1
        · exact storedOk_stepB hB
        · rw [rebalStepB, if_neg hB]
          exact hok
      · rw [rebalStepA, if_neg hA]
        by_cases hB : balance t < -1
        · exact storedOk_stepB hB
        · exfalso
          omega

theorem rebalanceLoop_of_balanced (fuel : Nat) {t : SDict V}
    (h : (balance t).natAbs ≤ 1) : rebalanceLoop fuel t = t := by
  cases fuel with
  | zero => rfl
  | succ f => rw [rebalanceLoop, if_pos h]

theorem realItems_rebalance (t : SDict V) : realItems (rebalance t) = realItems t := by
  rw [rebalance, realItems_rebalanceLoop, realItems_updateSelf]

theorem storedOkB_rebalance_node {k v} {l r : SDict V} {h n}
    (hl : storedOkB l = true) (hr : storedOkB r = true) :
    storedOkB (rebalance (.node k v l r h n)) = true := by
  rw [rebalance]
  exact storedOkB_rebalanceLoop _ (storedOkB_updateSelf hl hr)

theorem rebalance_empty : rebalance (.empty : SDict V) = .empty := by
  rfl

theorem storedOkB_rebalance {t : SDict V} (ht : storedOkB t = true) :
    storedOkB (rebalance t) = true := by
  cases t with
  | empty => rw [rebalance_empty]; rfl
  | node k v l r h n =>
    obtain ⟨hl, hr⟩ := storedOkB_children ht
    exact storedOkB_rebalance_node hl hr

end SDict

namespace SDict

variable {V : Type}

theorem listInsert_append_inner {k : PyKey} {v : V} (xs : List (PyKey × V))
    {ys : List (PyKey × V)} (hxs : ∀ p ∈ xs, ltB p.1 k = true) :
    listInsert k v (xs ++ ys) = xs ++ listInsert k v ys := by
  induction xs with
  | nil => rfl
  | cons p rest ih =>
    have hp := hxs p (by simp)
    have h1 : ltB k p.1 = false := ltB_asymm hp
    have h2 : k ≠ p.1 := (ne_of_ltB hp).symm
    simp only [List.cons_append, listInsert, h1, if_neg h2, List.append_eq]
    simp only [Bool.false_eq_true, if_false]
    rw [ih fun q hq => hxs q (by simp [hq])]

theorem listInsert_append_outer {k : PyKey} {v : V} (xs : List (PyKey × V))
    {ys : List (PyKey × V)} (hys : ∀ p ∈ ys, ltB k p.1 = true) :
    listInsert k v (xs ++ ys) = listInsert k v xs ++ ys := by
  induction xs with
  | nil =>
    cases ys with
    | nil => rfl
    | cons q rest =>
      have hq := hys q (by simp)
      simp [listInsert, hq]
  | cons p rest ih =>
    by_cases h1 : ltB k p.1 = true
    · simp [listInsert, h1]
    · by_cases h2 : k = p.1
      · subst h2
        simp [listInsert, h1, ltB_irrefl]
      · simp only [List.cons_append, listInsert, h1, if_neg h2, List.append_eq]
        simp only [Bool.false_eq_true, if_false]
        rw [ih, List.cons_append]

theorem pairwise_node_decomp {k0 : PyKey} {v0 : V} {l r : SDict V} {h n : Nat}
    (hp : List.Pairwise keyLtP (realKeys (.node k0 v0 l r h n))) :
    List.Pairwise keyLtP (realKeys l) ∧ List.Pairwise keyLtP (realKeys r) ∧
    (∀ a ∈ realKeys l, ltB a k0 = true) ∧ (∀ b ∈ realKeys r, ltB k0 b = true) := by
  rw [realKeys_node, List.pairwise_append, List.pairwise_append] at hp
  obtain ⟨⟨hl, _, hlk⟩, hr, hcross⟩ := hp
  refine ⟨hl, hr, ?_, ?_⟩
  · intro a ha
    exact hlk a ha k0 (by simp)
  · intro b hb
    exact hcross k0 (by simp) b hb

theorem mem_realKeys_node {k0 : PyKey} {v0 : V} {l r : SDict V} {h n : Nat} :
    k0 ∈ realKeys (.node k0 v0 l r h n) := by
  rw [realKeys_node]
  simp

theorem mem_realKeys_node_left {k0 a : PyKey} {v0 : V} {l r : SDict V} {h n : Nat}
    (ha : a ∈ realKeys l) : a ∈ realKeys (.node k0 v0 l r h n) := by
  rw [realKeys_node]
  simp [ha]

theorem mem_realKeys_node_right {k0 b : PyKey} {v0 : V} {l r : SDict V} {h n : Nat}
    (hb : b ∈ realKeys r) : b ∈ realKeys (.node k0 v0 l r h n) := by
  rw [realKeys_node]
  simp [hb]

theorem inv_children {k0 : PyKey} {v0 : V} {l r : SDict V} {h n : Nat}
    (hInv : Inv (.node k0 v0 l r h n)) : Inv l ∧ Inv r := by
  obtain ⟨hok, hp⟩ := hInv
  obtain ⟨hol, hor⟩ := storedOkB_children hok
  obtain ⟨hpl, hpr, _, _⟩ := pairwise_node_decomp hp
  exact ⟨⟨hol, hpl⟩, ⟨hor, hpr⟩⟩

theorem compat_children {k k0 : PyKey} {v0 : V} {l r : SDict V} {h n : Nat}
    (hc : compatKey k (.node k0 v0 l r h n)) :
    compatKey k l ∧ compatKey k r ∧ sameType k k0 = true := by
  refine ⟨fun a ha => hc a (mem_realKeys_node_left ha),
    fun b hb => hc b (mem_realKeys_node_right hb),
    hc k0 mem_realKeys_node⟩

theorem storedN_root_ne_zero {k0 : PyKey} {v0 : V} {l r : SDict V} {h n : Nat}
    (hok : storedOkB (.node k0 v0 l r h n) = true) : n ≠ 0 := by
  have := storedN_eq_realSize hok
  simp only [storedN, realSize] at this
  omega

theorem rebalance_node_left_empty (k : PyKey) (v : V) (r : SDict V) (h n : Nat) :
    rebalance (.node k v .empty r h n) =
      .node k v .empty r (storedH r + 1) (storedN r + 1) := by
  rw [rebalance]
  have h1 : updateSelf (.node k v .empty r h n) =
      .node k v .empty r (storedH r + 1) (storedN r + 1) := by
    simp [updateSelf, storedH, storedN]
  rw [h1]
  apply rebalanceLoop_of_balanced
  simp [balance, storedN]

end SDict

theorem PyKey.eq_of_not_ltB {a b : PyKey} (hst : sameType a b = true)
    (h1 : ltB a b = false) (h2 : ltB b a = false) : a = b := by
  by_contra hne
  rcases ltB_total a b hst hne with hlt | hlt
  · rw [hlt] at h1
    cases h1
  · rw [hlt] at h2
    cases h2

namespace SDict

variable {V : Type}

theorem mem_keys_of_mem_items {p : PyKey × V} {xs : List (PyKey × V)}
    (hp : p ∈ xs) : p.1 ∈ xs.map Prod.fst :=
  List.mem_map_of_mem Prod.fst hp

theorem setitem_ok {t : SDict V} (k : PyKey) (v : V)
    (hInv : Inv t) (hc : compatKey k t) :
    (setitem t k v).1 = none ∧
    realItems (setitem t k v).2 = listInsert k v (realItems t) ∧
    storedOkB (setitem t k v).2 = true := by
  induction t with
  | empty =>
    simp only [setitem]
    refine ⟨trivial, ?_, ?_⟩
    · simp only [realItems_rebalance]
      rfl
    · exact storedOkB_rebalance_node rfl rfl
  | node k0 v0 l r h n ihl ihr =>
    obtain ⟨hok, hp⟩ := hInv
    obtain ⟨hInvL, hInvR⟩ := inv_children ⟨hok, hp⟩
    obtain ⟨hcl, hcr, hst⟩ := compat_children hc
    obtain ⟨hpl, hpr, hlk, hrk⟩ := pairwise_node_decomp hp
    have hn0 : ¬ n = 0 := storedN_root_ne_zero hok
    obtain ⟨hokl, hokr⟩ := storedOkB_children hok
    have hgt : pyGt k k0 = .ok (ltB k0 k) := by rw [pyGt, if_pos hst]
    by_cases hc1 : ltB k0 k = true
    · obtain ⟨he, hi, hs⟩ := ihr hInvR hcr
      rcases hsr : setitem r k v with ⟨e1, r1⟩
      rw [hsr] at he hi hs
      simp only at he hi hs
      subst he
      simp only [setitem, if_neg hn0, hgt, hc1, hsr]
      refine ⟨trivial, ?_, ?_⟩
      · simp only [realItems_rebalance, realItems, hi]
        rw [listInsert_append_inner (realItems l ++ [(k0, v0)])]
        intro p hp2
        rcases List.mem_append.1 hp2 with hpl2 | hpk
        · exact ltB_trans (hlk p.1 (mem_keys_of_mem_items hpl2)) hc1
        · have hpe : p = (k0, v0) := by simpa using hpk
          rw [hpe]
          exact hc1
      · exact storedOkB_rebalance_node hokl hs
    · have hlt : pyLt k k0 = .ok (ltB k k0) := by rw [pyLt, if_pos hst]
      by_cases hc2 : ltB k k0 = true
      · obtain ⟨he, hi, hs⟩ := ihl hInvL hcl
        rcases hsl : setitem l k v with ⟨e1, l1⟩
        rw [hsl] at he hi hs
        simp only at he hi hs
        subst he
        simp only [setitem, if_neg hn0, hgt, hc1, hlt, hc2, hsl]
        refine ⟨trivial, ?_, ?_⟩
        · simp only [realItems_rebalance, realItems, hi]
          have hcond : ∀ p ∈ [(k0, v0)] ++ realItems r, ltB k p.1 = true := by
            intro p hp2
            rcases List.mem_append.1 hp2 with hpk | hpr2
            · have hpe : p = (k0, v0) := by simpa using hpk
              rw [hpe]
              exact hc2
            · exact ltB_trans hc2 (hrk p.1 (mem_keys_of_mem_items hpr2))
          rw [List.append_assoc, List.append_assoc]
          exact (listInsert_append_outer (realItems l) hcond).symm
        · exact storedOkB_rebalance_node hs hokr
      · have hkeq : k = k0 :=
          PyKey.eq_of_not_ltB hst (by simpa using hc2) (by simpa using hc1)
        subst hkeq
        simp only [setitem, if_neg hn0, hgt, hc1, hlt, hc2]
        refine ⟨trivial, ?_, ?_⟩
        · simp only [realItems_rebalance, realItems]
          have hcond : ∀ p ∈ realItems l, ltB p.1 k = true := by
            intro p hp2
            exact hlk p.1 (mem_keys_of_mem_items hp2)
          rw [List.append_assoc, List.append_assoc,
            listInsert_append_inner (realItems l) hcond]
          simp [listInsert, ltB_irrefl]
        · exact storedOkB_rebalance_node hokl hokr

end SDict

namespace SDict

variable {V : Type}

theorem pairwise_sameType {xs : List PyKey} (hp : List.Pairwise keyLtP xs)
    {a b : PyKey} (ha : a ∈ xs) (hb : b ∈ xs) : sameType a b = true := by
  induction xs with
  | nil => cases ha
  | cons x rest ih =>
    obtain ⟨hx, hrest⟩ := List.pairwise_cons.1 hp
    rcases List.mem_cons.1 ha with rfl | ha2
    · rcases List.mem_cons.1 hb with rfl | hb2
      · exact sameType_refl _
      · exact ltB_sameType (hx b hb2)
    · rcases List.mem_cons.1 hb with rfl | hb2
      · exact sameType_symm (ltB_sameType (hx a ha2))
      · exact ih hrest ha2 hb2

theorem compat_of_mem {t : SDict V} (hp : List.Pairwise keyLtP (realKeys t))
    {k : PyKey} (hmem : k ∈ realKeys t) : compatKey k t :=
  fun a ha => pairwise_sameType hp hmem ha

theorem mem_keys_listInsert {k a : PyKey} {v : V} (xs : List (PyKey × V)) :
    a ∈ (listInsert k v xs).map Prod.fst ↔ a = k ∨ a ∈ xs.map Prod.fst := by
  induction xs with
  | nil => simp [listInsert]
  | cons p rest ih =>
    by_cases h1 : ltB k p.1 = true
    · simp [listInsert, h1]
    · by_cases h2 : k = p.1
      · subst h2
        simp only [listInsert, h1]
        simp
      · simp only [listInsert, h1, if_neg h2]
        simp only [Bool.false_eq_true, if_false, List.map_cons, List.mem_cons, ih]
        tauto

theorem pairwise_listInsert {k : PyKey} {v : V} {xs : List (PyKey × V)}
    (hst : ∀ a ∈ xs.map Prod.fst, sameType k a = true)
    (hp : List.Pairwise keyLtP (xs.map Prod.fst)) :
    List.Pairwise keyLtP ((listInsert k v xs).map Prod.fst) := by
  induction xs with
  | nil => simp [listInsert, List.Pairwise]
  | cons p rest ih =>
    obtain ⟨hx, hrest⟩ := List.pairwise_cons.1 hp
    by_cases h1 : ltB k p.1 = true
    · simp only [listInsert, h1, if_pos]
      refine List.pairwise_cons.2 ⟨?_, hp⟩
      intro b hb
      rcases List.mem_cons.1 hb with rfl | hb2
      · exact h1
      · exact ltB_trans h1 (hx b hb2)
    · by_cases h2 : k = p.1
      · subst h2
        simp only [listInsert, h1, if_pos rfl]
        simp only [Bool.false_eq_true, if_false, ite_self]
        exact List.pairwise_cons.2 ⟨hx, hrest⟩
      · have hpk : ltB p.1 k = true := by
          rcases ltB_total k p.1 (hst p.1 (by simp)) h2 with hlt | hlt
          · exact absurd hlt h1
          · exact hlt
        simp only [listInsert, h1, if_neg h2]
        simp only [Bool.false_eq_true, if_false, List.map_cons]
        refine List.pairwise_cons.2 ⟨?_, ?_⟩
        · intro b hb
          rcases (mem_keys_listInsert rest).1 hb with rfl | hb2
          · exact hpk
          · exact hx b hb2
        · exact ih (fun a ha => hst a (by simp [ha])) hrest

end SDict

namespace SDict

variable {V : Type}

theorem listErase_append (k : PyKey) (xs ys : List (PyKey × V)) :
    listErase k (xs ++ ys) = listErase k xs ++ listErase k ys := by
  simp [listErase, List.filter_append]

theorem listErase_of_forall_ne {k : PyKey} {xs : List (PyKey × V)}
    (hne : ∀ p ∈ xs, p.1 ≠ k) : listErase k xs = xs := by
  induction xs with
  | nil => rfl
  | cons p rest ih =>
    have hp := hne p (by simp)
    simp only [listErase, List.filter_cons, decide_eq_true_eq, if_pos hp]
    rw [show List.filter (fun p => decide (p.1 ≠ k)) rest = listErase k rest from rfl,
      ih fun q hq => hne q (by simp [hq])]

theorem listErase_single (k : PyKey) (v : V) :
    listErase k [(k, v)] = ([] : List (PyKey × V)) := by
  simp [listErase]

theorem findMin_eq {t : SDict V} (hok : storedOkB t = true) (hne : t ≠ .empty) :
    ∃ sk sv tl, findMin t = some (sk, sv) ∧ realItems t = (sk, sv) :: tl := by
  induction t with
  | empty => exact absurd rfl hne
  | node k v l r h n ihl ihr =>
    obtain ⟨hokl, hokr⟩ := storedOkB_children hok
    by_cases hl : storedN l ≠ 0
    · have hlne : l ≠ .empty := by
        intro he
        rw [he] at hl
        exact hl rfl
      obtain ⟨sk, sv, tl, hf, hi⟩ := ihl hokl hlne
      refine ⟨sk, sv, tl ++ [(k, v)] ++ realItems r, ?_, ?_⟩
      · simp [findMin, hl, hf]
      · simp [realItems, hi]
    · have hl0 : storedN l = 0 := by omega
      have hle : l = .empty := by
        apply (realSize_eq_zero_iff l).1
        rw [← storedN_eq_realSize hokl, hl0]
      subst hle
      refine ⟨k, v, realItems r, ?_, ?_⟩
      · simp [findMin, hl]
      · simp [realItems]

end SDict

namespace SDict

variable {V : Type}

theorem pyEq_false_of_ne {a b : PyKey} (h : a ≠ b) : pyEq a b = false :=
  Bool.eq_false_iff.2 fun h2 => h (pyEq_iff.1 h2)

theorem delitem_absent {t : SDict V} {k : PyKey} (hInv : Inv t)
    (hc : compatKey k t) (hmem : k ∉ realKeys t) :
    delitem t k = (some .keyError, t) := by
  induction t with
  | empty => rfl
  | node k0 v0 l r h n ihl ihr =>
    obtain ⟨hok, hp⟩ := hInv
    obtain ⟨hInvL, hInvR⟩ := inv_children ⟨hok, hp⟩
    obtain ⟨hcl, hcr, hst⟩ := compat_children hc
    have hn0 : ¬ n = 0 := storedN_root_ne_zero hok
    have hkne : k ≠ k0 := fun he => hmem (he ▸ mem_realKeys_node)
    have hpe : pyEq k k0 = false := pyEq_false_of_ne hkne
    have hlt : pyLt k k0 = .ok (ltB k k0) := by rw [pyLt, if_pos hst]
    have hmeml : k ∉ realKeys l := fun h2 => hmem (mem_realKeys_node_left h2)
    have hmemr : k ∉ realKeys r := fun h2 => hmem (mem_realKeys_node_right h2)
    by_cases hc2 : ltB k k0 = true
    · simp only [delitem, if_neg hn0, hpe, Bool.false_eq_true, if_false, hlt, hc2,
        ihl hInvL hcl hmeml]
    · simp only [delitem, if_neg hn0, hpe, Bool.false_eq_true, if_false, hlt, hc2,
        ihr hInvR hcr hmemr]

end SDict

namespace SDict

variable {V : Type}

theorem delitem_ok (t : SDict V) : ∀ k : PyKey, Inv t → k ∈ realKeys t →
    (delitem t k).1 = none ∧
    realItems (delitem t k).2 = listErase k (realItems t) ∧
    storedOkB (delitem t k).2 = true := by
  induction t with
  | empty =>
    intro k _ hmem
    simp [realKeys, realItems] at hmem
  | node k0 v0 l r h n ihl ihr =>
    intro k hInv hmem
    obtain ⟨hok, hp⟩ := hInv
    obtain ⟨hInvL, hInvR⟩ := inv_children ⟨hok, hp⟩
    obtain ⟨hpl, hpr, hlk, hrk⟩ := pairwise_node_decomp hp
    have hn0 : ¬ n = 0 := storedN_root_ne_zero hok
    obtain ⟨hokl, hokr⟩ := storedOkB_children hok
    by_cases hkeq : k = k0
    · subst hkeq
      have hlneq : ∀ p ∈ realItems l, p.1 ≠ k := fun p hp2 =>
        ne_of_ltB (hlk p.1 (mem_keys_of_mem_items hp2))
      have hrneq : ∀ p ∈ realItems r, p.1 ≠ k := fun p hp2 =>
        (ne_of_ltB (hrk p.1 (mem_keys_of_mem_items hp2))).symm
      have hpe : pyEq k k = true := pyEq_iff.2 rfl
      by_cases hr0 : storedN r = 0
      · have hre : r = .empty := by
          apply (realSize_eq_zero_iff r).1
          rw [← storedN_eq_realSize hokr, hr0]
        subst hre
        simp only [delitem, if_neg hn0, hpe, if_pos, storedN, if_true]
        refine ⟨trivial, ?_, ?_⟩
        · rw [realItems_rebalance]
          simp only [realItems, listErase_append, listErase_single,
            listErase_of_forall_ne hlneq]
          simp [listErase]
        · exact storedOkB_rebalance hokl
      · by_cases hl0 : storedN l = 0
        · have hle : l = .empty := by
            apply (realSize_eq_zero_iff l).1
            rw [← storedN_eq_realSize hokl, hl0]
          simp only [delitem, if_neg hn0, hpe, if_pos, if_neg hr0, hl0, if_true]
          refine ⟨trivial, ?_, ?_⟩
          · rw [realItems_rebalance]
            rw [hle]
            simp only [realItems, listErase_append, listErase_single,
              listErase_of_forall_ne hrneq]
            simp [listErase]
          · exact storedOkB_rebalance hokr
        · have hrne2 : r ≠ .empty := by
            intro he
            rw [he] at hr0
            exact hr0 rfl
          obtain ⟨sk, sv, tl, hf, hir⟩ := findMin_eq hokr hrne2
          have hskmem : sk ∈ realKeys r := by
            rw [realKeys, hir]
            simp
          obtain ⟨he1, hi1, hs1⟩ := ihr sk hInvR hskmem
          rcases hdr : delitem r sk with ⟨e1, r1⟩
          rw [hdr] at he1 hi1 hs1
          simp only at he1 hi1 hs1
          subst he1
          simp only [delitem, if_neg hn0, hpe, if_pos, if_neg hr0, if_neg hl0, hf, hdr,
            if_true]
          refine ⟨trivial, ?_, ?_⟩
          · rw [realItems_rebalance]
            have htl : ∀ p ∈ tl, p.1 ≠ sk := by
              have hpr2 : List.Pairwise keyLtP (sk :: tl.map Prod.fst) := by
                have hkr : realKeys r = sk :: tl.map Prod.fst := by
                  rw [realKeys, hir]
                  rfl
                rw [← hkr]
                exact hpr
              obtain ⟨hx, _⟩ := List.pairwise_cons.1 hpr2
              intro p hp2 he
              exact (ne_of_ltB (hx p.1 (List.mem_map_of_mem Prod.fst hp2))).symm he
            have hitems : realItems r1 = tl := by
              rw [hi1, hir]
              simp only [listErase, List.filter_cons, decide_eq_true_eq]
              rw [if_neg (by simp)]
              exact listErase_of_forall_ne htl
            simp only [realItems, hitems, listErase_append, listErase_single,
              listErase_of_forall_ne hlneq, listErase_of_forall_ne hrneq]
            simp [hir]
          · exact storedOkB_rebalance_node hokl hs1
    · have hst : sameType k k0 := pairwise_sameType hp hmem mem_realKeys_node
      have hpe : pyEq k k0 = false := pyEq_false_of_ne hkeq
      have hlt : pyLt k k0 = .ok (ltB k k0) := by rw [pyLt, if_pos hst]
      have hk0ne : listErase k [(k0, v0)] = [(k0, v0)] := by
        apply listErase_of_forall_ne
        intro p hp2
        simp only [List.mem_singleton] at hp2
        rw [hp2]
        exact fun he => hkeq he.symm
      have hmem2 : k ∈ realKeys l ∨ k ∈ realKeys r := by
        rw [realKeys_node] at hmem
        rcases List.mem_append.1 hmem with hm | hm
        · rcases List.mem_append.1 hm with hm2 | hm2
          · exact Or.inl hm2
          · exact absurd (by simpa using hm2) hkeq
        · exact Or.inr hm
      rcases hmem2 with hml | hmr
      · have hc2 : ltB k k0 = true := hlk k hml
        obtain ⟨he1, hi1, hs1⟩ := ihl k hInvL hml
        rcases hdl : delitem l k with ⟨e1, l1⟩
        rw [hdl] at he1 hi1 hs1
        simp only at he1 hi1 hs1
        subst he1
        simp only [delitem, if_neg hn0, hpe, Bool.false_eq_true, if_false, hlt, hc2, hdl]
        refine ⟨trivial, ?_, ?_⟩
        · rw [realItems_rebalance]
          have hrneq2 : ∀ p ∈ realItems r, p.1 ≠ k := fun p hp2 =>
            Ne.symm (ne_of_ltB (ltB_trans hc2 (hrk p.1 (mem_keys_of_mem_items hp2))))
          simp only [realItems, listErase_append, hi1, hk0ne,
            listErase_of_forall_ne hrneq2]
        · exact storedOkB_rebalance_node hs1 hokr
      · have hgt2 : ltB k0 k = true := hrk k hmr
        have hc2 : ltB k k0 = false := ltB_asymm hgt2
        obtain ⟨he1, hi1, hs1⟩ := ihr k hInvR hmr
        rcases hdr : delitem r k with ⟨e1, r1⟩
        rw [hdr] at he1 hi1 hs1
        simp only at he1 hi1 hs1
        subst he1
        simp only [delitem, if_neg hn0, hpe, Bool.false_eq_true, if_false, hlt, hc2, hdr]
        refine ⟨trivial, ?_, ?_⟩
        · rw [realItems_rebalance]
          have hlneq2 : ∀ p ∈ realItems l, p.1 ≠ k :=
            fun p hp2 => ne_of_ltB (ltB_trans (hlk p.1 (mem_keys_of_mem_items hp2)) hgt2)
          simp only [realItems, listErase_append, hi1, hk0ne,
            listErase_of_forall_ne hlneq2]
        · exact storedOkB_rebalance_node hokl hs1

end SDict

namespace SDict

variable {V : Type}

theorem getitem_mem {t : SDict V} (hInv : Inv t) {k : PyKey} {v : V}
    (hmem : (k, v) ∈ realItems t) : getitem t k = .ok v := by
  induction t with
  | empty => simp [realItems] at hmem
  | node k0 v0 l r h n ihl ihr =>
    obtain ⟨hok, hp⟩ := hInv
    obtain ⟨hInvL, hInvR⟩ := inv_children ⟨hok, hp⟩
    obtain ⟨hpl, hpr, hlk, hrk⟩ := pairwise_node_decomp hp
    have hn0 : ¬ n = 0 := storedN_root_ne_zero hok
    simp only [realItems, List.append_assoc, List.mem_append, List.mem_singleton] at hmem
    rcases hmem with hml | hmk | hmr
    · have hkl : k ∈ realKeys l := mem_keys_of_mem_items hml
      have hc2 : ltB k k0 = true := hlk k hkl
      have hst : sameType k k0 = true := ltB_sameType hc2
      have hkne : k0 ≠ k := fun he => by
        rw [he] at hc2
        rw [ltB_irrefl] at hc2
        cases hc2
      have hpe : pyEq k0 k = false := pyEq_false_of_ne hkne
      have hgt : pyGt k k0 = .ok (ltB k0 k) := by rw [pyGt, if_pos hst]
      have hglt : ltB k0 k = false := ltB_asymm hc2
      simp only [getitem, if_neg hn0, hpe, Bool.false_eq_true, if_false, hgt, hglt]
      exact ihl hInvL hml
    · have hk : k = k0 := congrArg Prod.fst hmk
      have hv : v = v0 := congrArg Prod.snd hmk
      subst hk
      subst hv
      have hpe : pyEq k k = true := pyEq_iff.2 rfl
      simp [getitem, if_neg hn0, hpe]
    · have hkr : k ∈ realKeys r := mem_keys_of_mem_items hmr
      have hc2 : ltB k0 k = true := hrk k hkr
      have hst : sameType k k0 = true := sameType_symm (ltB_sameType hc2)
      have hkne : k0 ≠ k := ne_of_ltB hc2
      have hpe : pyEq k0 k = false := pyEq_false_of_ne hkne
      have hgt : pyGt k k0 = .ok (ltB k0 k) := by rw [pyGt, if_pos hst]
      simp only [getitem, if_neg hn0, hpe, Bool.false_eq_true, if_false, hgt, hc2]
      exact ihr hInvR hmr

theorem getitem_absent {t : SDict V} (hInv : Inv t) {k : PyKey}
    (hc : compatKey k t) (hmem : k ∉ realKeys t) : getitem t k = .error .keyError := by
  induction t with
  | empty => rfl
  | node k0 v0 l r h n ihl ihr =>
    obtain ⟨hok, hp⟩ := hInv
    obtain ⟨hInvL, hInvR⟩ := inv_children ⟨hok, hp⟩
    obtain ⟨hcl, hcr, hst⟩ := compat_children hc
    have hn0 : ¬ n = 0 := storedN_root_ne_zero hok
    have hkne : k0 ≠ k := fun he => hmem (he ▸ mem_realKeys_node)
    have hpe : pyEq k0 k = false := pyEq_false_of_ne hkne
    have hgt : pyGt k k0 = .ok (ltB k0 k) := by rw [pyGt, if_pos hst]
    have hmeml : k ∉ realKeys l := fun h2 => hmem (mem_realKeys_node_left h2)
    have hmemr : k ∉ realKeys r := fun h2 => hmem (mem_realKeys_node_right h2)
    by_cases hc2 : ltB k0 k = true
    · simp only [getitem, if_neg hn0, hpe, Bool.false_eq_true, if_false, hgt, hc2]
      exact ihr hInvR hcr hmemr
    · have hc2f : ltB k0 k = false := by simpa using hc2
      simp only [getitem, if_neg hn0, hpe, Bool.false_eq_true, if_false, hgt, hc2f]
      exact ihl hInvL hcl hmeml

theorem getitem_ok_mem {t : SDict V} {k : PyKey} {v : V}
    (hget : getitem t k = .ok v) : (k, v) ∈ realItems t := by
  induction t with
  | empty => cases hget
  | node k0 v0 l r h n ihl ihr =>
    by_cases hn0 : n = 0
    · rw [getitem, if_pos hn0] at hget
      cases hget
    · rw [getitem, if_neg hn0] at hget
      by_cases hpe : pyEq k0 k = true
      · rw [if_pos hpe] at hget
        have hke : k0 = k := pyEq_iff.1 hpe
        subst hke
        cases hget
        simp [realItems]
      · rw [if_neg hpe] at hget
        rcases hgt : pyGt k k0 with e | b
        · rw [hgt] at hget
          cases hget
        · rw [hgt] at hget
          cases b with
          | true =>
            simp only at hget
            have := ihr hget
            simp [realItems, this]
          | false =>
            simp only at hget
            have := ihl hget
            simp [realItems, this]

end SDict

namespace SDict

variable {V : Type}

theorem pairwise_listErase (k : PyKey) {xs : List (PyKey × V)}
    (hp : List.Pairwise keyLtP (xs.map Prod.fst)) :
    List.Pairwise keyLtP ((listErase k xs).map Prod.fst) :=
  hp.sublist ((List.filter_sublist xs).map Prod.fst)

theorem setitem_inv {t : SDict V} {k : PyKey} (v : V)
    (hInv : Inv t) (hc : compatKey k t) : Inv (setitem t k v).2 := by
  obtain ⟨he, hi, hs⟩ := setitem_ok k v hInv hc
  refine ⟨hs, ?_⟩
  rw [realKeys, hi]
  exact pairwise_listInsert hc hInv.2

theorem delitem_inv {t : SDict V} (k : PyKey) (hInv : Inv t) :
    Inv (delitem t k).2 := by
  by_cases hc : compatKey k t
  · by_cases hmem : k ∈ realKeys t
    · obtain ⟨he, hi, hs⟩ := delitem_ok t k hInv hmem
      refine ⟨hs, ?_⟩
      rw [realKeys, hi]
      exact pairwise_listErase k hInv.2
    · rw [delitem_absent hInv hc hmem]
      exact hInv
  · cases t with
    | empty =>
      exact absurd (fun a ha => by simp [realKeys, realItems] at ha) hc
    | node k0 v0 l r h n =>
      have hst0 : sameType k k0 = false := by
        by_contra hst
        have hst2 : sameType k k0 = true := by simpa using hst
        apply hc
        intro a ha
        exact sameType_trans hst2 (pairwise_sameType hInv.2 mem_realKeys_node ha)
      have hkne : k ≠ k0 := by
        intro he
        rw [he, sameType_refl] at hst0
        cases hst0
      have hn0 : ¬ n = 0 := storedN_root_ne_zero hInv.1
      have hpe : pyEq k k0 = false := pyEq_false_of_ne hkne
      have hlt : pyLt k k0 = .error .typeError := by rw [pyLt, if_neg (by simp [hst0])]
      simp only [delitem, if_neg hn0, hpe, Bool.false_eq_true, if_false, hlt]
      exact hInv

theorem setitem_not_compat {t : SDict V} {k : PyKey} (v : V)
    (hInv : Inv t) (hc : ¬ compatKey k t) :
    setitem t k v = (some .typeError, t) := by
  cases t with
  | empty => exact absurd (fun a ha => by simp [realKeys, realItems] at ha) hc
  | node k0 v0 l r h n =>
    have hst0 : sameType k k0 = false := by
      by_contra hst
      have hst2 : sameType k k0 = true := by simpa using hst
      apply hc
      intro a ha
      exact sameType_trans hst2 (pairwise_sameType hInv.2 mem_realKeys_node ha)
    have hn0 : ¬ n = 0 := storedN_root_ne_zero hInv.1
    have hgt : pyGt k k0 = .error .typeError := by rw [pyGt, if_neg (by simp [hst0])]
    simp only [setitem, if_neg hn0, hgt]

theorem setitem_err {t : SDict V} {k : PyKey} {v : V} {e : PyErr}
    (he : (setitem t k v).1 = some e) : (setitem t k v).2 = t := by
  induction t with
  | empty => cases he
  | node k0 v0 l r h n ihl ihr =>
    simp only [setitem] at he ⊢
    by_cases hn0 : n = 0
    · rw [if_pos hn0] at he
      cases he
    · rw [if_neg hn0] at he ⊢
      rcases hgt : pyGt k k0 with e1 | b
      · rfl
      · rw [hgt] at he
        cases b with
        | true =>
          simp only at he ⊢
          rcases hsr : setitem r k v with ⟨e2, r1⟩
          rw [hsr] at he
          cases e2 with
          | none =>
            simp only at he
            cases he
          | some e3 =>
            simp only at he ⊢
            have he3 : e3 = e := Option.some.inj he
            subst he3
            have hr1 : (setitem r k v).2 = r := ihr (by rw [hsr])
            rw [hsr] at hr1
            simp only at hr1
            rw [hr1]
        | false =>
          simp only at he ⊢
          rcases hlt : pyLt k k0 with e1 | b2
          · rfl
          · rw [hlt] at he
            cases b2 with
            | true =>
              simp only at he ⊢
              rcases hsl : setitem l k v with ⟨e2, l1⟩
              rw [hsl] at he
              cases e2 with
              | none =>
                simp only at he
                cases he
              | some e3 =>
                simp only at he ⊢
                have he3 : e3 = e := Option.some.inj he
                subst he3
                have hl1 : (setitem l k v).2 = l := ihl (by rw [hsl])
                rw [hsl] at hl1
                simp only at hl1
                rw [hl1]
            | false =>
              simp only at he
              cases he

theorem delitem_err {t : SDict V} {k : PyKey} {e : PyErr}
    (hInv : Inv t) (he : (delitem t k).1 = some e) : (delitem t k).2 = t := by
  by_cases hc : compatKey k t
  · by_cases hmem : k ∈ realKeys t
    · obtain ⟨he1, _, _⟩ := delitem_ok t k hInv hmem
      rw [he1] at he
      cases he
    · rw [delitem_absent hInv hc hmem]
  · cases t with
    | empty =>
      exact absurd (fun a ha => by simp [realKeys, realItems] at ha) hc
    | node k0 v0 l r h n =>
      have hst0 : sameType k k0 = false := by
        by_contra hst
        have hst2 : sameType k k0 = true := by simpa using hst
        apply hc
        intro a ha
        exact sameType_trans hst2 (pairwise_sameType hInv.2 mem_realKeys_node ha)
      have hkne : k ≠ k0 := by
        intro he2
        rw [he2, sameType_refl] at hst0
        cases hst0
      have hn0 : ¬ n = 0 := storedN_root_ne_zero hInv.1
      have hpe : pyEq k k0 = false := pyEq_false_of_ne hkne
      have hlt : pyLt k k0 = .error .typeError := by rw [pyLt, if_neg (by simp [hst0])]
      simp only [delitem, if_neg hn0, hpe, Bool.false_eq_true, if_false, hlt]

theorem applyOp_inv {t : SDict V} (hInv : Inv t) (op : MapOp V) :
    Inv (applyOp t op) := by
  cases op with
  | set k v =>
    by_cases hc : compatKey k t
    · exact setitem_inv v hInv hc
    · rw [applyOp, setitem_not_compat v hInv hc]
      exact hInv
  | del k => exact delitem_inv k hInv

theorem foldl_applyOp_inv {t : SDict V} (ops : List (MapOp V)) (hInv : Inv t) :
    Inv (ops.foldl applyOp t) := by
  induction ops generalizing t with
  | nil => exact hInv
  | cons op rest ih => exact ih (applyOp_inv hInv op)

theorem empty_inv : Inv (.empty : SDict V) := by
  constructor
  · rfl
  · simp [realKeys, realItems]

theorem applyOps_inv (ops : List (MapOp V)) : Inv (applyOps ops) :=
  foldl_applyOp_inv ops empty_inv

theorem reachable_inv {t : SDict V} (hr : ReachableT t) : Inv t := by
  obtain ⟨ops, hops⟩ := hr
  rw [← hops]
  exact applyOps_inv ops

end SDict

namespace SDict

variable {V : Type}

theorem iterKeys_eq_realKeys {t : SDict V} (hok : storedOkB t = true) :
    iterKeys t = realKeys t := by
  induction t with
  | empty => rfl
  | node k v l r h n ihl ihr =>
    obtain ⟨hokl, hokr⟩ := storedOkB_children hok
    have hn0 : ¬ n = 0 := storedN_root_ne_zero hok
    simp only [iterKeys, if_neg hn0, ihl hokl, ihr hokr, realKeys_node]

theorem filterMap_keys_id {xs : List (PyKey × V)} {f : PyKey → Option (PyKey × V)}
    (hf : ∀ p ∈ xs, f p.1 = some p) : (xs.map Prod.fst).filterMap f = xs := by
  induction xs with
  | nil => rfl
  | cons p rest ih =>
    simp only [List.map_cons, List.filterMap_cons, hf p (by simp)]
    rw [ih fun q hq => hf q (by simp [hq])]

theorem dictItems_eq_realItems {t : SDict V} (hInv : Inv t) :
    dictItems t = realItems t := by
  rw [dictItems, iterKeys_eq_realKeys hInv.1, realKeys]
  apply filterMap_keys_id
  intro p hp2
  have hg : getitem t p.1 = .ok p.2 := by
    apply getitem_mem hInv
    rw [Prod.mk.eta]
    exact hp2
  rw [hg]

theorem buildList_fold (ps : List (PyKey × V)) :
    ∀ t : SDict V, Inv t →
    (∀ p ∈ ps, ∀ a ∈ realKeys t, sameType p.1 a = true) →
    List.Pairwise (fun p q : PyKey × V => sameType p.1 q.1 = true) ps →
    Inv (ps.foldl (fun u p => (setitem u p.1 p.2).2) t) ∧
    realItems (ps.foldl (fun u p => (setitem u p.1 p.2).2) t) =
      ps.foldl (fun xs p => listInsert p.1 p.2 xs) (realItems t) := by
  induction ps with
  | nil =>
    intro t hInv _ _
    exact ⟨hInv, rfl⟩
  | cons p rest ih =>
    intro t hInv hcomp hpair
    have hcp : compatKey p.1 t := fun a ha => hcomp p (by simp) a ha
    obtain ⟨he, hi, hs⟩ := setitem_ok p.1 p.2 hInv hcp
    have hInv2 : Inv (setitem t p.1 p.2).2 := setitem_inv p.2 hInv hcp
    obtain ⟨hx, hrest⟩ := List.pairwise_cons.1 hpair
    simp only [List.foldl_cons]
    have hcomp2 : ∀ q ∈ rest, ∀ a ∈ realKeys (setitem t p.1 p.2).2,
        sameType q.1 a = true := by
      intro q hq a ha
      rw [realKeys, hi] at ha
      rcases (mem_keys_listInsert _).1 ha with rfl | ha2
      · exact sameType_symm (hx q hq)
      · exact hcomp q (by simp [hq]) a ha2
    obtain ⟨hI, hit⟩ := ih (setitem t p.1 p.2).2 hInv2 hcomp2 hrest
    refine ⟨hI, ?_⟩
    rw [hit, hi]

theorem buildFromList_spec (ps : List (PyKey × V))
    (hpair : List.Pairwise (fun p q : PyKey × V => sameType p.1 q.1 = true) ps) :
    Inv (buildFromList ps) ∧
    realItems (buildFromList ps) = ps.foldl (fun xs p => listInsert p.1 p.2 xs) [] := by
  have h := buildList_fold ps .empty empty_inv
    (fun p _ a ha => by simp [realKeys, realItems] at ha) hpair
  exact h

end SDict

namespace SDict

variable {V : Type}

theorem listInsert_perm {k : PyKey} {v : V} {xs : List (PyKey × V)}
    (hfresh : k ∉ xs.map Prod.fst) : (listInsert k v xs).Perm ((k, v) :: xs) := by
  induction xs with
  | nil => exact List.Perm.refl _
  | cons p rest ih =>
    have hkp : k ≠ p.1 := by
      intro he
      exact hfresh (by simp [he])
    by_cases h1 : ltB k p.1 = true
    · simp only [listInsert, h1, if_pos]
      exact List.Perm.refl _
    · simp only [listInsert, h1, if_neg hkp]
      simp only [Bool.false_eq_true, if_false]
      have hrec := ih (fun hm => hfresh (by simp [hm]))
      exact (hrec.cons p).trans (List.Perm.swap (k, v) p rest)

theorem listFold_perm (ps : List (PyKey × V)) :
    ∀ xs : List (PyKey × V),
    (xs.map Prod.fst ++ ps.map Prod.fst).Nodup →
    (ps.foldl (fun ys p => listInsert p.1 p.2 ys) xs).Perm (xs ++ ps) := by
  induction ps with
  | nil =>
    intro xs _
    simp
  | cons p rest ih =>
    intro xs hnd
    simp only [List.foldl_cons]
    have hfresh : p.1 ∉ xs.map Prod.fst := by
      intro hm
      rw [List.nodup_append] at hnd
      exact hnd.2.2 hm (by simp)
    have hperm1 : (listInsert p.1 p.2 xs).Perm ((p.1, p.2) :: xs) := listInsert_perm hfresh
    have hkeys : ((listInsert p.1 p.2 xs).map Prod.fst).Perm
        (p.1 :: xs.map Prod.fst) := by
      have hh := hperm1.map Prod.fst
      simpa using hh
    have hpm1 : (xs.map Prod.fst ++ p.1 :: rest.map Prod.fst).Perm
        (p.1 :: (xs.map Prod.fst ++ rest.map Prod.fst)) := List.perm_middle
    have hpm2 : (p.1 :: (xs.map Prod.fst ++ rest.map Prod.fst)).Perm
        ((listInsert p.1 p.2 xs).map Prod.fst ++ rest.map Prod.fst) := by
      have hh : ((p.1 :: xs.map Prod.fst) ++ rest.map Prod.fst).Perm
          ((listInsert p.1 p.2 xs).map Prod.fst ++ rest.map Prod.fst) :=
        hkeys.symm.append_right _
      simpa using hh
    have hnd2 : ((listInsert p.1 p.2 xs).map Prod.fst ++ rest.map Prod.fst).Nodup :=
      (hpm1.trans hpm2).nodup (by simpa using hnd)
    have hih := ih (listInsert p.1 p.2 xs) hnd2
    have hstep2 : (listInsert p.1 p.2 xs ++ rest).Perm (((p.1, p.2) :: xs) ++ rest) :=
      hperm1.append_right rest
    have hstep3 : (((p.1, p.2) :: xs) ++ rest).Perm (xs ++ p :: rest) := by
      rw [Prod.mk.eta]
      exact List.perm_middle.symm
    exact (hih.trans hstep2).trans hstep3

end SDict

namespace SDict

variable {V : Type}

theorem listInsert_of_forall_lt {k : PyKey} {v : V} {xs : List (PyKey × V)}
    (hlt : ∀ p ∈ xs, ltB p.1 k = true) : listInsert k v xs = xs ++ [(k, v)] := by
  have hh := @listInsert_append_inner V k v xs [] hlt
  simpa using hh

theorem listFold_sorted_id (ps : List (PyKey × V)) :
    ∀ xs : List (PyKey × V),
    List.Pairwise keyLtP (ps.map Prod.fst) →
    (∀ p ∈ xs, ∀ q ∈ ps, ltB p.1 q.1 = true) →
    ps.foldl (fun ys p => listInsert p.1 p.2 ys) xs = xs ++ ps := by
  induction ps with
  | nil =>
    intro xs _ _
    simp
  | cons p rest ih =>
    intro xs hp hcross
    rw [List.map_cons] at hp
    obtain ⟨hx, hrest⟩ := List.pairwise_cons.1 hp
    simp only [List.foldl_cons]
    rw [listInsert_of_forall_lt (fun q hq => hcross q hq p (by simp)), Prod.mk.eta]
    have hcross2 : ∀ q ∈ xs ++ [p], ∀ w ∈ rest, ltB q.1 w.1 = true := by
      intro q hq w hw
      rcases List.mem_append.1 hq with hq2 | hq2
      · exact hcross q hq2 w (by simp [hw])
      · have hqe : q = p := by simpa using hq2
        rw [hqe]
        exact hx w.1 (List.mem_map_of_mem Prod.fst hw)
    rw [ih (xs ++ [p]) hrest hcross2]
    simp

theorem assocVal_cons (p : PyKey × V) (rest : List (PyKey × V)) (k : PyKey) :
    assocVal k (p :: rest) =
      if pyEq p.1 k = true then some p.2 else assocVal k rest := by
  simp only [assocVal, List.find?_cons]
  cases hpk : pyEq p.1 k
  · simp
  · simp

theorem assocVal_listInsert (k2 k : PyKey) (v : V) (xs : List (PyKey × V)) :
    assocVal k2 (listInsert k v xs) = if k2 = k then some v else assocVal k2 xs := by
  induction xs with
  | nil =>
    rw [show listInsert k v ([] : List (PyKey × V)) = [(k, v)] from rfl, assocVal_cons]
    by_cases he : k2 = k
    · have hkk : pyEq k k = true := pyEq_iff.2 rfl
      simp [he, hkk]
    · simp [pyEq_false_of_ne (fun hh => he hh.symm : k ≠ k2), he]
  | cons p rest ih =>
    by_cases h1 : ltB k p.1 = true
    · simp only [listInsert, h1, if_pos]
      rw [assocVal_cons]
      by_cases he : k2 = k
      · have hkk : pyEq k k = true := pyEq_iff.2 rfl
        simp [he, hkk]
      · simp [pyEq_false_of_ne (fun hh => he hh.symm : k ≠ k2), he]
    · by_cases h2 : k = p.1
      · simp only [listInsert, h1, Bool.false_eq_true, if_false, if_pos h2]
        rw [assocVal_cons, assocVal_cons]
        by_cases he : k2 = k
        · have hkk : pyEq k k = true := pyEq_iff.2 rfl
          simp [he, hkk]
        · have hpe : pyEq k k2 = false := pyEq_false_of_ne fun hh => he hh.symm
          have hpe2 : pyEq p.1 k2 = false := by
            rw [← h2]
            exact hpe
          simp [hpe, hpe2, he]
      · simp only [listInsert, h1, if_neg h2]
        simp only [Bool.false_eq_true, if_false]
        rw [assocVal_cons, assocVal_cons, ih]
        by_cases hp2 : pyEq p.1 k2 = true
        · have he2 : ¬ k2 = k := fun hh => h2 (hh ▸ pyEq_iff.1 hp2).symm
          simp [hp2, he2]
        · have hp2f : pyEq p.1 k2 = false := by simpa using hp2
          simp [hp2f]

theorem lastVal_cons (p : PyKey × V) (rest : List (PyKey × V)) (k : PyKey) :
    lastVal k (p :: rest) =
      match lastVal k rest with
      | some v => some v
      | none => if pyEq p.1 k = true then some p.2 else none := by
  simp only [lastVal, List.reverse_cons, List.find?_append]
  rcases hfr : rest.reverse.find? (fun q => pyEq q.1 k) with _ | q
  · cases hpk : pyEq p.1 k
    · rw [hfr]
      simp [List.find?_cons, hpk, Option.or]
    · rw [hfr]
      simp [List.find?_cons, hpk, Option.or]
  · rw [hfr]
    simp [Option.or]

theorem assocVal_listFold (ps : List (PyKey × V)) :
    ∀ (xs : List (PyKey × V)) (k : PyKey),
    assocVal k (ps.foldl (fun ys p => listInsert p.1 p.2 ys) xs) =
      match lastVal k ps with
      | some v => some v
      | none => assocVal k xs := by
  induction ps with
  | nil =>
    intro xs k
    simp [lastVal]
  | cons p rest ih =>
    intro xs k
    simp only [List.foldl_cons]
    rw [ih, lastVal_cons, assocVal_listInsert]
    rcases hlv : lastVal k rest with _ | w
    · simp only
      by_cases he : k = p.1
      · subst he
        have hkk : pyEq p.1 p.1 = true := pyEq_iff.2 rfl
        simp [hkk]
      · simp [pyEq_false_of_ne (fun hh => he hh.symm : p.1 ≠ k), he]
    · rfl

theorem assocVal_mem {k : PyKey} {v : V} {xs : List (PyKey × V)}
    (hav : assocVal k xs = some v) : (k, v) ∈ xs := by
  induction xs with
  | nil => cases hav
  | cons p rest ih =>
    by_cases hp2 : pyEq p.1 k = true
    · have hk : p.1 = k := pyEq_iff.1 hp2
      simp only [assocVal, List.find?_cons, hp2, if_pos] at hav
      have hv : p.2 = v := by simpa using hav
      have hpe : p = (k, v) := by rw [← hk, ← hv]
      simp [hpe]
    · have hp2f : pyEq p.1 k = false := by simpa using hp2
      simp only [assocVal, List.find?_cons, hp2f, Bool.false_eq_true, if_false] at hav
      exact List.mem_cons_of_mem p (ih hav)

theorem length_listInsert_mem {k : PyKey} (v : V) {xs : List (PyKey × V)}
    (hp : List.Pairwise keyLtP (xs.map Prod.fst))
    (hmem : k ∈ xs.map Prod.fst) : (listInsert k v xs).length = xs.length := by
  induction xs with
  | nil => simp at hmem
  | cons p rest ih =>
    rw [List.map_cons] at hp hmem
    obtain ⟨hx, hrest⟩ := List.pairwise_cons.1 hp
    rcases List.mem_cons.1 hmem with he | hm2
    · have h1 : ltB k p.1 = false := by
        rw [he]
        exact ltB_irrefl _
      simp only [listInsert, h1, Bool.false_eq_true, if_false, if_pos he]
      simp
    · have hp1k : ltB p.1 k = true := hx k hm2
      have h1 : ltB k p.1 = false := ltB_asymm hp1k
      have h2 : k ≠ p.1 := (ne_of_ltB hp1k).symm
      simp only [listInsert, h1, Bool.false_eq_true, if_false, if_neg h2]
      simp only [List.length_cons]
      rw [ih hrest hm2]

theorem length_listErase_mem {k : PyKey} {xs : List (PyKey × V)}
    (hp : List.Pairwise keyLtP (xs.map Prod.fst))
    (hmem : k ∈ xs.map Prod.fst) : (listErase k xs).length + 1 = xs.length := by
  induction xs with
  | nil => simp at hmem
  | cons p rest ih =>
    rw [List.map_cons] at hp hmem
    obtain ⟨hx, hrest⟩ := List.pairwise_cons.1 hp
    rcases List.mem_cons.1 hmem with he | hm2
    · have hrest2 : ∀ q ∈ rest, q.1 ≠ k := by
        intro q hq
        rw [he]
        exact (ne_of_ltB (hx q.1 (List.mem_map_of_mem Prod.fst hq))).symm
      simp only [listErase, List.filter_cons, decide_eq_true_eq]
      rw [if_neg (fun hh => hh he.symm)]
      rw [show List.filter (fun q => decide (q.1 ≠ k)) rest = listErase k rest from rfl,
        listErase_of_forall_ne hrest2]
      simp
    · have hp1k : p.1 ≠ k := by
        intro he2
        exact (ne_of_ltB (hx k hm2)).symm he2.symm
      simp only [listErase, List.filter_cons, decide_eq_true_eq, if_pos hp1k]
      simp only [List.length_cons]
      rw [show List.filter (fun q => decide (q.1 ≠ k)) rest = listErase k rest from rfl]
      have hihr := ih hrest hm2
      omega

theorem mem_keys_listErase {k a : PyKey} {xs : List (PyKey × V)} :
    a ∈ (listErase k xs).map Prod.fst ↔ a ∈ xs.map Prod.fst ∧ a ≠ k := by
  simp only [listErase, List.mem_map]
  constructor
  · rintro ⟨p, hpmem, rfl⟩
    obtain ⟨hpm, hpk⟩ := List.mem_filter.1 hpmem
    exact ⟨⟨p, hpm, rfl⟩, by simpa using hpk⟩
  · rintro ⟨⟨p, hpm, rfl⟩, hak⟩
    exact ⟨p, List.mem_filter.2 ⟨hpm, by simpa using hak⟩, rfl⟩

end SDict

namespace SDict

theorem storedH_spine (lo : Int) (len : Nat) : storedH (spine lo len) = len := by
  cases len <;> rfl

theorem storedN_spine (lo : Int) (len : Nat) : storedN (spine lo len) = len := by
  cases len <;> rfl

theorem realHeight_spine (len : Nat) : ∀ lo : Int, realHeight (spine lo len) = len := by
  induction len with
  | zero => intro lo; rfl
  | succ len ih =>
    intro lo
    simp [spine, realHeight, ih (lo + 1)]

theorem setitem_spine (len : Nat) : ∀ lo : Int,
    setitem (spine lo len) (.int (lo + len)) 0 = (none, spine lo (len + 1)) := by
  induction len with
  | zero =>
    intro lo
    show setitem .empty (.int (lo + (0 : Nat))) 0 = (none, spine lo 1)
    simp only [setitem]
    rw [rebalance_node_left_empty]
    simp [spine, storedH, storedN]
  | succ len ih =>
    intro lo
    have hlt : ltB (.int lo) (.int (lo + ((len + 1 : Nat) : Int))) = true := by
      simp only [ltB, decide_eq_true_eq]
      push_cast
      omega
    have hgt : pyGt (.int (lo + ((len + 1 : Nat) : Int))) (.int lo) = .ok true := by
      rw [pyGt, if_pos (by rfl), hlt]
    have hcast : lo + ((len + 1 : Nat) : Int) = (lo + 1) + (len : Int) := by
      push_cast
      ring
    have hrec : setitem (spine (lo + 1) len) (.int (lo + ((len + 1 : Nat) : Int))) 0 =
        (none, spine (lo + 1) (len + 1)) := by
      rw [hcast]
      exact ih (lo + 1)
    show setitem (.node (.int lo) 0 .empty (spine (lo + 1) len) (len + 1) (len + 1))
        (.int (lo + ((len + 1 : Nat) : Int))) 0 = (none, spine lo (len + 2))
    simp only [setitem, if_neg (Nat.succ_ne_zero len), hgt, hrec]
    rw [rebalance_node_left_empty]
    simp [spine, storedH_spine, storedN_spine, storedH, storedN]
  
theorem buildAsc_eq_spine (n : Nat) : buildAsc n = spine 1 n := by
  induction n with
  | zero => rfl
  | succ n ih =>
    have hra : ascPairs (n + 1) = ascPairs n ++ [(PyKey.int ((n : Int) + 1), 0)] := by
      simp [ascPairs, List.range_succ]
    rw [buildAsc, buildFromList, hra, List.foldl_append]
    rw [show (ascPairs n).foldl (fun t p => (setitem t p.1 p.2).2) .empty = buildAsc n from rfl,
      ih]
    simp only [List.foldl_cons, List.foldl_nil]
    have hkey : ((n : Int) + 1) = (1 : Int) + (n : Int) := by ring
    rw [hkey, setitem_spine n 1]

theorem getSteps_node_eq {k0 k : PyKey} {v : V} {l r : SDict V} {h n : Nat}
    (hn0 : ¬ n = 0) (hpe : pyEq k0 k = true) :
    getSteps (.node k0 v l r h n) k = 1 := by
  simp [getSteps, if_neg hn0, hpe]

theorem getSteps_node_gt {k0 k : PyKey} {v : V} {l r : SDict V} {h n : Nat}
    (hn0 : ¬ n = 0) (hne : pyEq k0 k = false) (hgt : pyGt k k0 = .ok true) :
    getSteps (.node k0 v l r h n) k = getSteps r k + 1 := by
  simp only [getSteps, if_neg hn0, hne, Bool.false_eq_true, if_false, hgt]

theorem getSteps_spine (len : Nat) : ∀ lo : Int,
    getSteps (spine lo (len + 1)) (.int (lo + len)) = len + 1 := by
  induction len with
  | zero =>
    intro lo
    have hpe : pyEq (.int lo) (.int (lo + ((0 : Nat) : Int))) = true := by
      simp [pyEq]
    exact getSteps_node_eq one_ne_zero hpe
  | succ len ih =>
    intro lo
    have hne : pyEq (.int lo) (.int (lo + ((len + 1 : Nat) : Int))) = false := by
      simp only [pyEq, decide_eq_false_iff_not]
      push_cast
      omega
    have hlt : ltB (.int lo) (.int (lo + ((len + 1 : Nat) : Int))) = true := by
      simp only [ltB, decide_eq_true_eq]
      push_cast
      omega
    have hgt : pyGt (.int (lo + ((len + 1 : Nat) : Int))) (.int lo) = .ok true := by
      rw [pyGt, if_pos (by rfl), hlt]
    have hcast : lo + ((len + 1 : Nat) : Int) = (lo + 1) + (len : Int) := by
      push_cast
      ring
    show getSteps (.node (.int lo) 0 .empty (spine (lo + 1) (len + 1)) (len + 2) (len + 2))
        (.int (lo + ((len + 1 : Nat) : Int))) = len + 2
    rw [getSteps_node_gt (by omega) hne hgt, hcast, ih (lo + 1)]

end SDict

namespace SDict

variable {V : Type}

theorem exists_val_of_mem_keys {t : SDict V} {k : PyKey}
    (hmem : k ∈ realKeys t) : ∃ v, (k, v) ∈ realItems t := by
  obtain ⟨p, hp, he⟩ := List.mem_map.1 hmem
  refine ⟨p.2, ?_⟩
  rw [← he, Prod.mk.eta]
  exact hp

theorem compat_after_set {t : SDict V} {k : PyKey} {v : V}
    (hInv : Inv t) (hc : compatKey k t) : compatKey k (setitem t k v).2 := by
  obtain ⟨_, hi, _⟩ := setitem_ok k v hInv hc
  intro a ha
  rw [realKeys, hi] at ha
  rcases (mem_keys_listInsert _).1 ha with rfl | ha2
  · exact sameType_refl _
  · exact hc a ha2

theorem applyDels_spec (ds : List PyKey) : ∀ t : SDict V, Inv t → ds.Nodup →
    (∀ d ∈ ds, d ∈ realKeys t) →
    Inv (applyDels t ds) ∧
    realSize (applyDels t ds) + ds.length = realSize t ∧
    (∀ a : PyKey, a ∈ realKeys (applyDels t ds) ↔ a ∈ realKeys t ∧ a ∉ ds) := by
  induction ds with
  | nil =>
    intro t hInv _ _
    refine ⟨hInv, by simp [applyDels], ?_⟩
    intro a
    simp [applyDels]
  | cons d rest ih =>
    intro t hInv hnd hds
    have hdmem : d ∈ realKeys t := hds d (by simp)
    obtain ⟨he1, hi1, hs1⟩ := delitem_ok t d hInv hdmem
    have hInv1 : Inv (delitem t d).2 := delitem_inv d hInv
    have hkeys1 : ∀ a : PyKey, a ∈ realKeys (delitem t d).2 ↔ a ∈ realKeys t ∧ a ≠ d := by
      intro a
      rw [realKeys, hi1]
      exact mem_keys_listErase
    have hsize1 : realSize (delitem t d).2 + 1 = realSize t := by
      rw [← length_realItems, ← length_realItems, hi1]
      exact length_listErase_mem hInv.2 hdmem
    obtain ⟨hnd1, hnd2⟩ := List.nodup_cons.1 hnd
    have hds2 : ∀ e ∈ rest, e ∈ realKeys (delitem t d).2 := by
      intro e he
      rw [hkeys1]
      exact ⟨hds e (by simp [he]), fun hed => hnd1 (hed ▸ he)⟩
    obtain ⟨hI, hsz, hk⟩ := ih (delitem t d).2 hInv1 hnd2 hds2
    have hfold : applyDels t (d :: rest) = applyDels (delitem t d).2 rest := rfl
    refine ⟨by rw [hfold]; exact hI, ?_, ?_⟩
    · rw [hfold]
      simp only [List.length_cons]
      omega
    · intro a
      rw [hfold, hk a, hkeys1]
      simp only [List.mem_cons]
      tauto

end SDict

open PyKey SDict

/-- C1: the claim states that after every set/delete operation from the
empty map every non-empty node satisfies the AVL balance invariant.  The
code violates it: inserting the keys 1, 2, 3 in that order produces a
right spine whose root has child heights 0 and 2.  The cause is the
`_balance` property, which returns 0 whenever `self._l` is falsy (an
empty left child), masking every right-heavy imbalance above an empty
left subtree, so `_rebalance` never rotates. -/
theorem claim1_avl_invariant_violated_after_three_inserts :
    applyOps [MapOp.set (.int 1) (0 : Nat), .set (.int 2) 0, .set (.int 3) 0] =
      SDict.node (.int 1) 0 .empty
        (.node (.int 2) 0 .empty (.node (.int 3) 0 .empty .empty 1 1) 2 2) 3 3 ∧
    avlOkB (applyOps [MapOp.set (.int 1) (0 : Nat), .set (.int 2) 0, .set (.int 3) 0]) =
      false :=
  ⟨rfl, rfl⟩

/-- C2: the claim states that inserting 1, 2, 3, 4, 5 ascending produces a
tree of height 3.  The code produces a right spine of height 5 (cached
and recomputed heights agree): no rotation is ever triggered because
every node on the spine has an empty left child and hence reported
balance 0. -/
theorem claim2_ascending_inserts_give_height_five :
    storedH (buildFromList
      [((.int 1 : PyKey), (0 : Nat)), (.int 2, 0), (.int 3, 0), (.int 4, 0), (.int 5, 0)]) = 5 ∧
    realHeight (buildFromList
      [((.int 1 : PyKey), (0 : Nat)), (.int 2, 0), (.int 3, 0), (.int 4, 0), (.int 5, 0)]) = 5 :=
  ⟨rfl, rfl⟩

/-- C3: on every map reachable from the empty map by set and delete
operations, `__iter__` yields keys in strictly ascending order (hence
without duplicates), and a key is yielded exactly when lookup succeeds
on it. -/
theorem claim3_iterate_sorted_and_complete {V : Type} (t : SDict V) (hr : ReachableT t) :
    List.Pairwise keyLtP (iterKeys t) ∧
    (∀ k : PyKey, k ∈ iterKeys t ↔ ∃ v, getitem t k = Except.ok v) := by
  have hInv := reachable_inv hr
  rw [iterKeys_eq_realKeys hInv.1]
  refine ⟨hInv.2, ?_⟩
  intro k
  constructor
  · intro hmem
    obtain ⟨v, hv⟩ := exists_val_of_mem_keys hmem
    exact ⟨v, getitem_mem hInv hv⟩
  · rintro ⟨v, hget⟩
    exact mem_keys_of_mem_items (getitem_ok_mem hget)

/-- Witness for C3 at the concrete operation sequence set 1, delete 2. -/
theorem claim3_witness :
    List.Pairwise keyLtP (iterKeys (applyOps [MapOp.set (.int 1) (0 : Nat), .del (.int 2)])) ∧
    (∀ k : PyKey, k ∈ iterKeys (applyOps [MapOp.set (.int 1) (0 : Nat), .del (.int 2)]) ↔
      ∃ v, getitem (applyOps [MapOp.set (.int 1) (0 : Nat), .del (.int 2)]) k =
        Except.ok v) :=
  claim3_iterate_sorted_and_complete _ ⟨[MapOp.set (.int 1) (0 : Nat), .del (.int 2)], rfl⟩

/-- C4: building a map from a list of pairs with unique, mutually
comparable keys and traversing it yields exactly those pairs sorted by
key (a permutation of the input, in strictly ascending key order), and
building a second map from the first map's items yields a map with
identical contents. -/
theorem claim4_round_trip {V : Type} (ps : List (PyKey × V))
    (hnd : (ps.map Prod.fst).Nodup)
    (hhomog : List.Pairwise (fun p q : PyKey × V => sameType p.1 q.1 = true) ps) :
    (realItems (buildFromList ps)).Perm ps ∧
    List.Pairwise keyLtP (realKeys (buildFromList ps)) ∧
    realItems (buildFromMap (buildFromList ps)) = realItems (buildFromList ps) := by
  obtain ⟨hInv, hitems⟩ := buildFromList_spec ps hhomog
  have hperm : (realItems (buildFromList ps)).Perm ps := by
    rw [hitems]
    have hp := listFold_perm ps [] (by simpa using hnd)
    simpa using hp
  refine ⟨hperm, hInv.2, ?_⟩
  rw [buildFromMap, dictItems_eq_realItems hInv]
  have hsorted : List.Pairwise keyLtP ((realItems (buildFromList ps)).map Prod.fst) :=
    hInv.2
  have hhomog2 : List.Pairwise (fun p q : PyKey × V => sameType p.1 q.1 = true)
      (realItems (buildFromList ps)) :=
    (List.pairwise_map.1 hsorted).imp fun hpq => ltB_sameType hpq
  obtain ⟨hInv2, hitems2⟩ := buildFromList_spec _ hhomog2
  rw [hitems2]
  have hsid := listFold_sorted_id (realItems (buildFromList ps)) [] hsorted (by simp)
  simpa using hsid

/-- Witness for C4 at a concrete two-element pair list. -/
theorem claim4_witness :
    (realItems (buildFromList [((.int 2 : PyKey), (20 : Nat)), (.int 1, 10)])).Perm
      [((.int 2 : PyKey), (20 : Nat)), (.int 1, 10)] ∧
    List.Pairwise keyLtP (realKeys (buildFromList [((.int 2 : PyKey), (20 : Nat)), (.int 1, 10)])) ∧
    realItems (buildFromMap (buildFromList [((.int 2 : PyKey), (20 : Nat)), (.int 1, 10)])) =
      realItems (buildFromList [((.int 2 : PyKey), (20 : Nat)), (.int 1, 10)]) :=
  claim4_round_trip _ (by decide) (by decide)

/-- C5: after inserting n pairwise distinct comparable keys `len()` is n;
deleting k of those keys one at a time leaves `len()` equal to n − k; and
re-inserting an already present key leaves `len()` unchanged. -/
theorem claim5_size_correctness {V : Type} :
    (∀ ps : List (PyKey × V), (ps.map Prod.fst).Nodup →
      List.Pairwise (fun p q : PyKey × V => sameType p.1 q.1 = true) ps →
      lenD (buildFromList ps) = ps.length) ∧
    (∀ (ps : List (PyKey × V)) (ds : List PyKey), (ps.map Prod.fst).Nodup →
      List.Pairwise (fun p q : PyKey × V => sameType p.1 q.1 = true) ps →
      ds.Nodup → (∀ d ∈ ds, d ∈ ps.map Prod.fst) →
      lenD (applyDels (buildFromList ps) ds) = ps.length - ds.length) ∧
    (∀ (t : SDict V) (k : PyKey) (v w : V), Inv t → getitem t k = Except.ok w →
      lenD ((setitem t k v).2) = lenD t) := by
  have hlen : ∀ ps : List (PyKey × V), (ps.map Prod.fst).Nodup →
      List.Pairwise (fun p q : PyKey × V => sameType p.1 q.1 = true) ps →
      lenD (buildFromList ps) = ps.length := by
    intro ps hnd hhomog
    obtain ⟨hInv, hitems⟩ := buildFromList_spec ps hhomog
    have hperm : (realItems (buildFromList ps)).Perm ps := by
      rw [hitems]
      have hp := listFold_perm ps [] (by simpa using hnd)
      simpa using hp
    rw [lenD, storedN_eq_realSize hInv.1, ← length_realItems]
    exact hperm.length_eq
  refine ⟨hlen, ?_, ?_⟩
  · intro ps ds hnd hhomog hdsnd hdsmem
    obtain ⟨hInv, hitems⟩ := buildFromList_spec ps hhomog
    have hperm : (realItems (buildFromList ps)).Perm ps := by
      rw [hitems]
      have hp := listFold_perm ps [] (by simpa using hnd)
      simpa using hp
    have hkeysperm : (realKeys (buildFromList ps)).Perm (ps.map Prod.fst) := hperm.map _
    have hdsmem2 : ∀ d ∈ ds, d ∈ realKeys (buildFromList ps) := by
      intro d hd
      exact hkeysperm.mem_iff.2 (hdsmem d hd)
    obtain ⟨hI, hsz, _⟩ := applyDels_spec ds (buildFromList ps) hInv hdsnd hdsmem2
    have hsize0 : realSize (buildFromList ps) = ps.length := by
      rw [← length_realItems]
      exact hperm.length_eq
    rw [lenD, storedN_eq_realSize hI.1]
    omega
  · intro t k v w hInv hget
    have hmem : k ∈ realKeys t := mem_keys_of_mem_items (getitem_ok_mem hget)
    have hc : compatKey k t := compat_of_mem hInv.2 hmem
    obtain ⟨_, hi, hs⟩ := setitem_ok k v hInv hc
    rw [lenD, lenD, storedN_eq_realSize hs, storedN_eq_realSize hInv.1,
      ← length_realItems, ← length_realItems, hi]
    exact length_listInsert_mem v hInv.2 hmem

/-- Witness for C5 at concrete inputs: build three keys, delete two of
them, and re-insert a present key. -/
theorem claim5_witness :
    lenD (buildFromList [((.int 1 : PyKey), (10 : Nat)), (.int 2, 20), (.int 3, 30)]) = 3 ∧
    lenD (applyDels
      (buildFromList [((.int 1 : PyKey), (10 : Nat)), (.int 2, 20), (.int 3, 30)])
      [.int 1, .int 3]) = 3 - 2 ∧
    lenD ((setitem (buildFromList [((.int 1 : PyKey), (10 : Nat))]) (.int 1) 99).2) =
      lenD (buildFromList [((.int 1 : PyKey), (10 : Nat))]) :=
  ⟨claim5_size_correctness.1 _ (by decide) (by decide),
   claim5_size_correctness.2.1 _ _ (by decide) (by decide) (by decide) (by decide),
   claim5_size_correctness.2.2 _ _ 99 10 (by decide) (by rfl)⟩

/-- C6: setting a key twice leaves exactly one entry for it, holding the
second value; and building from a pair list keeps, for each key, the
value of its last occurrence. -/
theorem claim6_overwrite {V : Type} :
    (∀ (t : SDict V) (k : PyKey) (v1 v2 : V), Inv t → compatKey k t →
      (realKeys ((setitem ((setitem t k v1).2) k v2).2)).count k = 1 ∧
      getitem ((setitem ((setitem t k v1).2) k v2).2) k = Except.ok v2) ∧
    (∀ (ps : List (PyKey × V)) (k : PyKey) (v : V),
      List.Pairwise (fun p q : PyKey × V => sameType p.1 q.1 = true) ps →
      lastVal k ps = some v →
      getitem (buildFromList ps) k = Except.ok v) := by
  constructor
  · intro t k v1 v2 hInv hc
    have hInv1 : Inv (setitem t k v1).2 := setitem_inv v1 hInv hc
    have hc1 : compatKey k (setitem t k v1).2 := compat_after_set hInv hc
    have hInv2 : Inv (setitem ((setitem t k v1).2) k v2).2 := setitem_inv v2 hInv1 hc1
    obtain ⟨_, hi2, _⟩ := setitem_ok k v2 hInv1 hc1
    have hmem : k ∈ realKeys ((setitem ((setitem t k v1).2) k v2).2) := by
      rw [realKeys, hi2]
      exact (mem_keys_listInsert _).2 (Or.inl rfl)
    have hnd : (realKeys ((setitem ((setitem t k v1).2) k v2).2)).Nodup :=
      hInv2.2.imp fun hpq => ne_of_ltB hpq
    refine ⟨List.count_eq_one_of_mem hnd hmem, ?_⟩
    have hav : assocVal k (realItems ((setitem ((setitem t k v1).2) k v2).2)) = some v2 := by
      rw [hi2, assocVal_listInsert]
      simp
    exact getitem_mem hInv2 (assocVal_mem hav)
  · intro ps k v hhomog hlast
    obtain ⟨hInv, hitems⟩ := buildFromList_spec ps hhomog
    have hav : assocVal k (realItems (buildFromList ps)) = some v := by
      rw [hitems, assocVal_listFold, hlast]
    exact getitem_mem hInv (assocVal_mem hav)

/-- Witness for C6: double insertion on a one-key map, and a build whose
source repeats a key. -/
theorem claim6_witness :
    (realKeys ((setitem ((setitem (buildFromList [((.int 5 : PyKey), (0 : Nat))])
      (.int 5) 1).2) (.int 5) 2).2)).count (.int 5) = 1 ∧
    getitem ((setitem ((setitem (buildFromList [((.int 5 : PyKey), (0 : Nat))])
      (.int 5) 1).2) (.int 5) 2).2) (.int 5) = Except.ok 2 ∧
    getitem (buildFromList [((.int 7 : PyKey), (1 : Nat)), (.int 7, 2)]) (.int 7) =
      Except.ok 2 :=
  ⟨(claim6_overwrite.1 _ _ 1 2 (by decide) (by decide)).1,
   (claim6_overwrite.1 _ _ 1 2 (by decide) (by decide)).2,
   claim6_overwrite.2 _ _ 2 (by decide) (by rfl)⟩

/-- C7: for a key that can be compared all the way down (so that the
search can reach an empty node), lookup raises `KeyError` exactly when
the key is absent and returns the stored value when present, and
deletion succeeds exactly when the key is present and raises `KeyError`
exactly when it is absent. -/
theorem claim7_keyerror_iff_absent {V : Type} (t : SDict V) (k : PyKey)
    (hInv : Inv t) (hc : compatKey k t) :
    (getitem t k = Except.error PyErr.keyError ↔ k ∉ realKeys t) ∧
    (∀ v, (k, v) ∈ realItems t → getitem t k = Except.ok v) ∧
    ((delitem t k).1 = none ↔ k ∈ realKeys t) ∧
    ((delitem t k).1 = some PyErr.keyError ↔ k ∉ realKeys t) := by
  by_cases hmem : k ∈ realKeys t
  · obtain ⟨v, hv⟩ := exists_val_of_mem_keys hmem
    have hget := getitem_mem hInv hv
    obtain ⟨hd1, _, _⟩ := delitem_ok t k hInv hmem
    refine ⟨?_, fun w hw => getitem_mem hInv hw, ?_, ?_⟩
    · constructor
      · intro he
        rw [hget] at he
        cases he
      · intro habs
        exact absurd hmem habs
    · constructor
      · intro _
        exact hmem
      · intro _
        exact hd1
    · constructor
      · intro he
        rw [hd1] at he
        cases he
      · intro habs
        exact absurd hmem habs
  · have hget := getitem_absent hInv hc hmem
    have hdel := delitem_absent hInv hc hmem
    refine ⟨⟨fun _ => hmem, fun _ => hget⟩, fun w hw => getitem_mem hInv hw, ?_, ?_⟩
    · constructor
      · intro he
        rw [hdel] at he
        cases he
      · intro hm
        exact absurd hm hmem
    · constructor
      · intro _
        exact hmem
      · intro _
        rw [hdel]

/-- Witness for C7 at a concrete one-key map and an absent key. -/
theorem claim7_witness :
    (getitem (buildFromList [((.int 1 : PyKey), (0 : Nat))]) (.int 2) =
        Except.error PyErr.keyError ↔
      (.int 2 : PyKey) ∉ realKeys (buildFromList [((.int 1 : PyKey), (0 : Nat))])) ∧
    (∀ v, ((.int 2 : PyKey), v) ∈ realItems (buildFromList [((.int 1 : PyKey), (0 : Nat))]) →
      getitem (buildFromList [((.int 1 : PyKey), (0 : Nat))]) (.int 2) = Except.ok v) ∧
    ((delitem (buildFromList [((.int 1 : PyKey), (0 : Nat))]) (.int 2)).1 = none ↔
      (.int 2 : PyKey) ∈ realKeys (buildFromList [((.int 1 : PyKey), (0 : Nat))])) ∧
    ((delitem (buildFromList [((.int 1 : PyKey), (0 : Nat))]) (.int 2)).1 =
        some PyErr.keyError ↔
      (.int 2 : PyKey) ∉ realKeys (buildFromList [((.int 1 : PyKey), (0 : Nat))])) :=
  claim7_keyerror_iff_absent _ _ (by decide) (by decide)

/-- C8 counterexample: the claim says `contains` never raises, for every
key including one not comparable with the stored keys.  On the map
{1: 0}, the membership test for the string key "a" propagates the
`TypeError` raised by the `>` comparison inside `__getitem__` (the
`Mapping.__contains__` mixin catches only `KeyError`). -/
theorem claim8_contains_counterexample :
    containsD (buildFromList [((.int 1 : PyKey), (0 : Nat))]) (.str "a") =
      Except.error PyErr.typeError :=
  rfl

/-- C8 amended: for a key comparable with every stored key (in
particular any key on an empty map), `contains` returns a boolean, true
exactly on membership, and never raises; an incomparable key instead
propagates `TypeError`. -/
theorem claim8_contains_amended {V : Type} (t : SDict V) (k : PyKey)
    (hInv : Inv t) (hc : compatKey k t) :
    containsD t k = Except.ok (decide (k ∈ realKeys t)) := by
  by_cases hmem : k ∈ realKeys t
  · obtain ⟨v, hv⟩ := exists_val_of_mem_keys hmem
    rw [containsD, getitem_mem hInv hv]
    simp [hmem]
  · rw [containsD, getitem_absent hInv hc hmem]
    simp [hmem]

/-- Witness for the amended C8 at a concrete map and a comparable absent
key. -/
theorem claim8_contains_amended_witness :
    containsD (buildFromList [((.int 1 : PyKey), (0 : Nat))]) (.int 2) =
      Except.ok (decide ((.int 2 : PyKey) ∈
        realKeys (buildFromList [((.int 1 : PyKey), (0 : Nat))]))) :=
  claim8_contains_amended _ _ (by decide) (by decide)

/-- C9: the claim promises O(log n) point operations via self-balancing.
The code is linear in the worst case: inserting 1..n ascending yields a
tree whose height equals its size n (the masked balance never triggers a
rotation), and looking up the deepest key visits n nodes. -/
theorem claim9_operations_linear_not_logarithmic (n : Nat) :
    realHeight (buildAsc n) = n ∧ lenD (buildAsc n) = n ∧
    getSteps (buildAsc (n + 1)) (.int ((n : Int) + 1)) = n + 1 := by
  refine ⟨?_, ?_, ?_⟩
  · rw [buildAsc_eq_spine, realHeight_spine]
  · rw [buildAsc_eq_spine]
    exact storedN_spine 1 n
  · rw [buildAsc_eq_spine]
    have hh := getSteps_spine n 1
    rwa [show (1 : Int) + (n : Int) = (n : Int) + 1 from by ring] at hh

/-- C10: whenever a set or delete call raises (absent key or failed
comparison), the map — the whole node structure, cached fields included —
is exactly as it was before the call; lookup performs no mutation by
construction (its translation has no state component). -/
theorem claim10_error_atomicity {V : Type} (t : SDict V) (k : PyKey) (v : V)
    (hInv : Inv t) :
    ((setitem t k v).1 ≠ none → (setitem t k v).2 = t) ∧
    ((delitem t k).1 ≠ none → (delitem t k).2 = t) := by
  constructor
  · intro hne
    rcases he : (setitem t k v).1 with _ | e
    · exact absurd he hne
    · exact setitem_err he
  · intro hne
    rcases he : (delitem t k).1 with _ | e
    · exact absurd he hne
    · exact delitem_err hInv he

/-- Witness for C10: a failing set (incomparable key, `TypeError`) and a
failing delete (absent key, `KeyError`) both leave the concrete map
unchanged. -/
theorem claim10_witness :
    (setitem (buildFromList [((.int 1 : PyKey), (0 : Nat))]) (.str "a") 0).2 =
      buildFromList [((.int 1 : PyKey), (0 : Nat))] ∧
    (delitem (buildFromList [((.int 1 : PyKey), (0 : Nat))]) (.int 2)).2 =
      buildFromList [((.int 1 : PyKey), (0 : Nat))] :=
  ⟨(claim10_error_atomicity _ (.str "a") 0 (by decide)).1 (by decide),
   (claim10_error_atomicity _ (.int 2) 0 (by decide)).2 (by decide)⟩
